import Mathlib

/-!
# Verification of the `still_here` device keep-alive service

A shallow embedding of the Python backend in `backend/still_here`:

* Python `dict`s are insertion-ordered association lists (keys are unique),
  `set[str]` values are duplicate-free lists.
* Python objects have reference semantics: `Device` objects live on a heap
  (`Nat` references); the repository indexes, the unit-of-work backup and the
  `seen` set hold references, exactly as the Python dictionaries hold objects.
* Timestamps are `Int` (UNIX seconds, UTC).  The value returned by
  `get_utc_tz_aware_datetime(datetime.now())` is modelled as a tagged value
  (`PyTimeVal`), because the distinction between a Python `datetime` object
  and an `int` is observable (adding an `int` to a `datetime` raises
  `TypeError`).
* Raising an exception is modelled by returning `some err` alongside the
  state reached when the exception escapes.
-/

namespace StillHere

/-! ## Python dictionaries as association lists -/

/-- `d.get(k)` / `d[k]`-with-presence-check: first binding of key `k`. -/
def dget {α β : Type} [DecidableEq α] : List (α × β) → α → Option β
  | [], _ => none
  | (k, v) :: rest, a => if k = a then some v else dget rest a

/-- `d[k] = v`: replace the binding in place if the key is present
(keeping its position, as Python dicts do), otherwise append it. -/
def dset {α β : Type} [DecidableEq α] : List (α × β) → α → β → List (α × β)
  | [], a, b => [(a, b)]
  | (k, v) :: rest, a, b => if k = a then (k, b) :: rest else (k, v) :: dset rest a b

/-- `d.pop(k, None)` / `del d[k]`: drop the binding of key `k`
(keys of a Python dict are unique, so dropping every binding of `k`
is the same operation). -/
def dpop {α β : Type} [DecidableEq α] (m : List (α × β)) (a : α) : List (α × β) :=
  m.filter (fun p => p.1 ≠ a)

/-- The key list of a dictionary, in insertion order. -/
def dkeys {α β : Type} (m : List (α × β)) : List α := m.map Prod.fst

@[simp] theorem dget_nil {α β : Type} [DecidableEq α] (a : α) :
    dget ([] : List (α × β)) a = none := rfl

theorem dget_cons {α β : Type} [DecidableEq α] (k a : α) (v : β) (rest : List (α × β)) :
    dget ((k, v) :: rest) a = if k = a then some v else dget rest a := rfl

@[simp] theorem dget_dset {α β : Type} [DecidableEq α]
    (m : List (α × β)) (k k' : α) (v : β) :
    dget (dset m k v) k' = if k = k' then some v else dget m k' := by
  induction m with
  | nil => by_cases h : k = k' <;> simp [dset, dget, h]
  | cons p rest ih =>
    obtain ⟨pk, pv⟩ := p
    by_cases h1 : pk = k
    · subst h1
      by_cases h2 : pk = k' <;> simp [dset, dget, h2]
    · by_cases h2 : pk = k'
      · subst h2
        have hkk : ¬ k = pk := fun h => h1 h.symm
        simp [dset, dget, h1, hkk]
      · simp [dset, dget, h1, h2, ih]

@[simp] theorem dget_dpop {α β : Type} [DecidableEq α]
    (m : List (α × β)) (k k' : α) :
    dget (dpop m k) k' = if k = k' then none else dget m k' := by
  induction m with
  | nil => by_cases h : k = k' <;> simp [dpop, dget, h]
  | cons p rest ih =>
    obtain ⟨pk, pv⟩ := p
    by_cases h1 : pk = k
    · subst h1
      have hrest : dpop ((pk, pv) :: rest) pk = dpop rest pk := by
        simp [dpop, List.filter]
      rw [hrest, ih]
      by_cases h2 : pk = k' <;> simp [dget, h2]
    · have hrest : dpop ((pk, pv) :: rest) k = (pk, pv) :: dpop rest k := by
        simp [dpop, List.filter, h1]
      rw [hrest]
      by_cases h2 : pk = k'
      · subst h2
        have hk : ¬ k = pk := fun h => h1 h.symm
        simp [dget, hk]
      · simp [dget, h2, ih]

theorem dkeys_dset {α β : Type} [DecidableEq α]
    (m : List (α × β)) (k : α) (v : β) :
    dkeys (dset m k v) = if k ∈ dkeys m then dkeys m else dkeys m ++ [k] := by
  induction m with
  | nil => simp [dset, dkeys]
  | cons p rest ih =>
    obtain ⟨pk, pv⟩ := p
    by_cases h1 : pk = k
    · subst h1
      simp [dset, dkeys]
    · have h1' : ¬ k = pk := fun h => h1 h.symm
      by_cases h2 : k ∈ dkeys rest <;>
        simp [dset, dkeys, h1, h1', h2] at ih ⊢ <;> simp [dkeys] at h2 <;>
          simp [ih, h1', h2]

theorem dkeys_nodup_dset {α β : Type} [DecidableEq α]
    (m : List (α × β)) (k : α) (v : β) (h : (dkeys m).Nodup) :
    (dkeys (dset m k v)).Nodup := by
  rw [dkeys_dset]
  by_cases hk : k ∈ dkeys m
  · simpa [hk]
  · simpa [hk, List.nodup_append] using h

theorem dkeys_nodup_dpop {α β : Type} [DecidableEq α]
    (m : List (α × β)) (k : α) (h : (dkeys m).Nodup) :
    (dkeys (dpop m k)).Nodup := by
  have hsub : dkeys (dpop m k) ⊆ [] ∨ True := Or.inr trivial
  have : (dpop m k).Sublist m := List.filter_sublist m
  exact (this.map Prod.fst).nodup h

/-- Membership of a key, via `dget`. -/
theorem dget_isSome_of_mem {α β : Type} [DecidableEq α]
    {m : List (α × β)} {k : α} {v : β} (h : (k, v) ∈ m) :
    (dget m k).isSome := by
  induction m with
  | nil => cases h
  | cons p rest ih =>
    obtain ⟨pk, pv⟩ := p
    rcases List.mem_cons.mp h with h | h
    · rw [Prod.mk.injEq] at h
      simp [dget, h.1]
    · by_cases hk : pk = k <;> simp [dget, hk, ih h]

theorem mem_of_dget_eq_some {α β : Type} [DecidableEq α]
    {m : List (α × β)} {k : α} {v : β} (h : dget m k = some v) :
    (k, v) ∈ m := by
  induction m with
  | nil => simp [dget] at h
  | cons p rest ih =>
    obtain ⟨pk, pv⟩ := p
    by_cases hk : pk = k
    · subst hk
      simp [dget] at h
      simp [h]
    · simp [dget, hk] at h
      exact List.mem_cons_of_mem _ (ih h)

/-! ## Python `set[str]` buckets -/

/-- `s.add(u)` on a `set`: no-op when already present. -/
def sadd (s : List String) (u : String) : List String :=
  if u ∈ s then s else s ++ [u]

/-- `s.discard(u)` on a `set`. -/
def sdiscard (s : List String) (u : String) : List String := s.erase u

@[simp] theorem mem_sadd (s : List String) (u x : String) :
    x ∈ sadd s u ↔ x ∈ s ∨ x = u := by
  unfold sadd
  by_cases h : u ∈ s
  · simp [h]
    intro hx; subst hx; exact h
  · simp [h, or_comm]

theorem sadd_nodup {s : List String} (u : String) (h : s.Nodup) :
    (sadd s u).Nodup := by
  unfold sadd
  by_cases hu : u ∈ s
  · simpa [hu]
  · simpa [hu, List.nodup_append] using h

theorem mem_sdiscard {s : List String} {u x : String} (h : s.Nodup) :
    x ∈ sdiscard s u ↔ x ∈ s ∧ x ≠ u := by
  unfold sdiscard
  rw [h.mem_erase_iff]
  exact and_comm

theorem sdiscard_nodup {s : List String} (u : String) (h : s.Nodup) :
    (sdiscard s u).Nodup := h.erase u

theorem sadd_ne_nil (s : List String) (u : String) : sadd s u ≠ [] := by
  unfold sadd
  by_cases h : u ∈ s
  · simp only [h, if_pos]
    intro hnil
    rw [hnil] at h
    cases h
  · simp [h]

/-! ## Domain events, commands and the `Device` aggregate
(`core/domain/events.py`, `core/domain/commands.py`, `core/domain/model.py`) -/

/-- The three domain event dataclasses of `core/domain/events.py`. -/
inductive Ev
  | registerDevice (uuid name last_will : String) (ttl fire_at : Int)
  | removeDevice (uuid : String)
  | keepAliveDevice (uuid : String) (fire_at : Int)
deriving DecidableEq, Repr

/-- The command dataclasses of `core/domain/commands.py`. -/
inductive Cmd
  | registerDevice (uuid name last_will : String) (ttl : Int)
  | removeDevice (uuid : String)
  | keepAliveDevice (uuid : String)
  | consumer (uuid consumer_id : String)
deriving DecidableEq, Repr

/-- Every command dataclass has a `uuid` attribute; handlers access it
duck-typed (`cmd.uuid`). -/
def Cmd.uuid : Cmd → String
  | .registerDevice u _ _ _ => u
  | .removeDevice u => u
  | .keepAliveDevice u => u
  | .consumer u _ => u

/-- The `Device` aggregate (`core/domain/model.py`).  `events` is the
per-aggregate pending-event list; `fire_at` is set by the constructor to
`created_at + ttl` (see `Device.init`). -/
structure Device where
  uuid : String
  name : String
  last_will : String
  ttl : Int
  created_at : Int
  fire_at : Int
  consumer_id : Option String
  consumed : Bool
  events : List Ev
  version_number : Int
deriving DecidableEq, Repr

/-- A Python value that is either an `int` number of UNIX seconds or a
timezone-aware `datetime` (carrying its timestamp).  `Device.__init__` is
called with `created_at=get_utc_tz_aware_datetime(datetime.now())`, which is
a `datetime` object, so the dynamic type of this value matters. -/
inductive PyTimeVal
  | intVal (n : Int)
  | datetimeVal (t : Int)
deriving DecidableEq, Repr

/-- `get_utc_tz_aware_datetime` (`foundation/utils.py`) turns the naive
`datetime.now()` at instant `now` into a timezone-aware `datetime` object:
it returns a `datetime`, not an integer. -/
def get_utc_tz_aware_datetime (now : Int) : PyTimeVal := .datetimeVal now

/-- `int(dt.timestamp())` on a UTC datetime at instant `t` is `t`;
on an `int` it would be the identity. -/
def PyTimeVal.timestampInt : PyTimeVal → Int
  | .intVal n => n
  | .datetimeVal t => t

/-- Python `+` between this value and an `int`: defined for `int`s,
raises `TypeError` for a `datetime` (datetime supports `+` only with
`timedelta`). -/
def pyAddInt : PyTimeVal → Int → Except String Int
  | .intVal n, k => .ok (n + k)
  | .datetimeVal _, _ =>
    .error "TypeError: unsupported operand type for +: datetime and int"

/-- The value stored in the `created_at` attribute, as an integer, when the
constructor succeeded (it can only succeed on an `intVal`). -/
def PyTimeVal.asInt : PyTimeVal → Int
  | .intVal n => n
  | .datetimeVal t => t

/-- `Device.__init__`: stores the given fields and computes
`self.fire_at = created_at + self.ttl`; the addition raises `TypeError`
when `created_at` is a `datetime` object. -/
def Device.init (uuid name last_will : String) (ttl : Int)
    (created_at : PyTimeVal) : Except String Device :=
  match pyAddInt created_at ttl with
  | .error e => .error e
  | .ok fa =>
    .ok { uuid := uuid, name := name, last_will := last_will, ttl := ttl,
          created_at := created_at.asInt, fire_at := fa,
          consumer_id := none, consumed := false, events := [],
          version_number := 0 }

/-- `Device.generate_event_register_device`: appends a
`RegisterDeviceEvent` to the aggregate's pending-event list. -/
def Device.generate_event_register_device (d : Device) : Device :=
  { d with events :=
      d.events ++ [.registerDevice d.uuid d.name d.last_will d.ttl d.fire_at] }

/-- `Device.generate_event_remove_device`. -/
def Device.generate_event_remove_device (d : Device) : Device :=
  { d with events := d.events ++ [.removeDevice d.uuid] }

/-- `Device.generate_event_keep_alive_device`. -/
def Device.generate_event_keep_alive_device (d : Device) : Device :=
  { d with events := d.events ++ [.keepAliveDevice d.uuid d.fire_at] }

/-! ## The in-memory repository (`core/repository.py`)

Device objects live on a heap of `Nat` references.  `by_uuid` and the
`by_fire_at` buckets hold references / uuids exactly like the Python
dictionaries hold objects.  `seen` is the `AbstractDeviceRepository.seen`
set; `Device.__eq__`/`__hash__` compare by uuid, so insertion into `seen`
deduplicates by the uuid of the referenced device. -/

structure RepoState where
  heap : List (Nat × Device)
  nextRef : Nat
  by_uuid : List (String × Nat)
  by_fire_at : List (Int × List String)
  seen : List Nat
deriving DecidableEq, Repr

/-- The empty repository (`InMemoryDeviceRepository.__init__`). -/
def RepoState.empty : RepoState :=
  { heap := [], nextRef := 0, by_uuid := [], by_fire_at := [], seen := [] }

/-- Allocate a fresh `Device` object on the heap (Python object creation). -/
def RepoState.alloc (s : RepoState) (d : Device) : Nat × RepoState :=
  (s.nextRef, { s with heap := s.heap ++ [(s.nextRef, d)], nextRef := s.nextRef + 1 })

/-- Mutate the device object behind `ref` in place. -/
def RepoState.heapModify (s : RepoState) (ref : Nat) (f : Device → Device) :
    RepoState :=
  match dget s.heap ref with
  | none => s
  | some d => { s with heap := dset s.heap ref (f d) }

/-- `self.seen.add(device)`: a `set` insert under uuid-based equality
(`Device.__eq__` compares uuids); the first object with a given uuid wins. -/
def RepoState.seenAdd (s : RepoState) (ref : Nat) : RepoState :=
  match dget s.heap ref with
  | none => s
  | some d =>
    if s.seen.any (fun r =>
        match dget s.heap r with
        | some d2 => d2.uuid = d.uuid
        | none => false)
    then s
    else { s with seen := s.seen ++ [ref] }

/-- `self.by_fire_at[t].add(u)` on the `defaultdict(set)`: reading a missing
key inserts an empty set, then the uuid is added. -/
def bucketAdd (m : List (Int × List String)) (t : Int) (u : String) :
    List (Int × List String) :=
  dset m t (sadd ((dget m t).getD []) u)

/-- `self.by_fire_at[t].discard(u)` followed by
`if not self.by_fire_at[t]: del self.by_fire_at[t]` — the re-indexing /
removal cleanup idiom of `_update` and `_remove`.  Reading a missing key
through the `defaultdict` creates an empty set which the `del` immediately
removes again, so a missing bucket is a net no-op. -/
def bucketDiscardAndClean (m : List (Int × List String)) (t : Int) (u : String) :
    List (Int × List String) :=
  let b := sdiscard ((dget m t).getD []) u
  if b = [] then dpop (dset m t b) t else dset m t b

/-- `InMemoryDeviceRepository._add`: index the device object under its uuid
and its `fire_at` bucket.  (The heap lookup of the passed object reference
cannot fail for live references.) -/
def RepoState._add (s : RepoState) (ref : Nat) : RepoState :=
  match dget s.heap ref with
  | none => s
  | some d =>
    { s with by_uuid := dset s.by_uuid d.uuid ref,
             by_fire_at := bucketAdd s.by_fire_at d.fire_at d.uuid }

/-- `InMemoryDeviceRepository._get`: `self.by_uuid.get(uuid)`, returning the
object (reference) or `None`. -/
def RepoState._get (s : RepoState) (uuid : String) : Option Nat :=
  dget s.by_uuid uuid

/-- `InMemoryDeviceRepository._get_all_by_uuid`: returns `self.by_uuid`. -/
def RepoState._get_all_by_uuid (s : RepoState) : List (String × Nat) :=
  s.by_uuid

/-- `range(start, end + 1)` over integers. -/
def intRange (start stop : Int) : List Int :=
  (List.range (stop + 1 - start).toNat).map (fun (i : Nat) => start + (i : Int))

/-- One iteration of the `_get_fire_at_between` loop body for timestamp
`ts`: collect `self._get(uuid)` for every uuid of the bucket (skipping
uuids whose lookup fails), then `self.by_fire_at.pop(ts, None)`. -/
def fireStep (st : List Nat × RepoState) (ts : Int) : List Nat × RepoState :=
  let devs := st.1
  let s := st.2
  let found := ((dget s.by_fire_at ts).getD []).filterMap (fun u => s._get u)
  (devs ++ found, { s with by_fire_at := dpop s.by_fire_at ts })

/-- `InMemoryDeviceRepository._get_fire_at_between`: iterate the inclusive
timestamp range, collecting the devices of each bucket and popping the
bucket. -/
def RepoState._get_fire_at_between (s : RepoState) (start stop : Int) :
    List Nat × RepoState :=
  (intRange start stop).foldl fireStep ([], s)

/-- The keyword arguments the program ever passes to
`AbstractDeviceRepository.update` (`keep_alive_device` passes exactly
`fire_at=...`); `name` stands for a field whose update does not touch the
time index. -/
structure UpdateFields where
  fire_at : Option Int
  name : Option String
deriving DecidableEq, Repr

/-- `InMemoryDeviceRepository._update`: `setattr` every given field on the
device object, then re-index the `fire_at` bucket when `"fire_at" in fields`
and the value changed. -/
def RepoState._update (s : RepoState) (uuid : String) (fields : UpdateFields) :
    RepoState :=
  match dget s.by_uuid uuid with
  | none => s
  | some ref =>
    match dget s.heap ref with
    | none => s
    | some device =>
      let old_fire_at := device.fire_at
      let device' := { device with
        fire_at := fields.fire_at.getD device.fire_at,
        name := fields.name.getD device.name }
      let s' := { s with heap := dset s.heap ref device' }
      match fields.fire_at with
      | none => s'
      | some nfa =>
        if nfa ≠ old_fire_at then
          let bfa :=
            bucketAdd (bucketDiscardAndClean s'.by_fire_at old_fire_at uuid) nfa uuid
          { s' with by_fire_at := bfa }
        else s'

/-- `InMemoryDeviceRepository._remove`: `self.by_uuid.pop(uuid, None)` and,
when an object was there, clean its `fire_at` bucket. -/
def RepoState._remove (s : RepoState) (uuid : String) : RepoState :=
  match dget s.by_uuid uuid with
  | none => s
  | some ref =>
    let s' := { s with by_uuid := dpop s.by_uuid uuid }
    match dget s'.heap ref with
    | none => s'
    | some device =>
      { s' with by_fire_at :=
          bucketDiscardAndClean s'.by_fire_at device.fire_at uuid }

/-- `InMemoryDeviceRepository._remove_all`: clear both indexes
(the objects themselves stay alive — other references may hold them). -/
def RepoState._remove_all (s : RepoState) : RepoState :=
  { s with by_uuid := [], by_fire_at := [] }

/-- `AbstractDeviceRepository.get`: `_get` plus `seen` tracking of a found
device. -/
def RepoState.get (s : RepoState) (uuid : String) : Option Nat × RepoState :=
  match s._get uuid with
  | none => (none, s)
  | some ref => (some ref, s.seenAdd ref)

/-- `AbstractDeviceRepository.get_all_by_uuid`: `_get_all_by_uuid` plus
`seen.update(devices_map.values())` when non-empty. -/
def RepoState.get_all_by_uuid (s : RepoState) :
    List (String × Nat) × RepoState :=
  let m := s._get_all_by_uuid
  (m, if m = [] then s else m.foldl (fun acc p => acc.seenAdd p.2) s)

/-- `AbstractDeviceRepository.get_fire_at_between`: `_get_fire_at_between`
plus `seen.update(devices)` when non-empty. -/
def RepoState.get_fire_at_between (s : RepoState) (start stop : Int) :
    List Nat × RepoState :=
  let r := s._get_fire_at_between start stop
  (r.1, if r.1 = [] then r.2 else r.1.foldl (fun acc ref => acc.seenAdd ref) r.2)

/-- `AbstractDeviceRepository.add`: `_add` then `seen.add(device)`. -/
def RepoState.add (s : RepoState) (ref : Nat) : RepoState :=
  (s._add ref).seenAdd ref

/-- `AbstractDeviceRepository.update`: `self.get(uuid)` (tracking `seen`),
then `_update` and another `seen.add` when the device exists. -/
def RepoState.update (s : RepoState) (uuid : String) (fields : UpdateFields) :
    RepoState :=
  let r := s.get uuid
  match r.1 with
  | none => r.2
  | some ref => ((r.2)._update uuid fields).seenAdd ref

/-- `AbstractDeviceRepository.remove`: `self.get(uuid)`, then `_remove` and
`seen.add` when the device exists. -/
def RepoState.remove (s : RepoState) (uuid : String) : RepoState :=
  let r := s.get uuid
  match r.1 with
  | none => r.2
  | some ref => ((r.2)._remove uuid).seenAdd ref

/-- `AbstractDeviceRepository.remove_all`: `self.get_all_by_uuid()`
(tracking `seen`), then `_remove_all` and `seen.update` when non-empty. -/
def RepoState.remove_all (s : RepoState) : RepoState :=
  let r := s.get_all_by_uuid
  if r.1 = [] then r.2
  else (r.1.foldl (fun acc p => acc.seenAdd p.2) (r.2)._remove_all)

/-- Resolve a list of object references to device values. -/
def RepoState.resolve (s : RepoState) (refs : List Nat) : List Device :=
  refs.filterMap (fun r => dget s.heap r)

/-! ## The in-memory Unit of Work
(`foundation/service/unit_of_work.py`, `core/service/unit_of_work.py`) -/

/-- `InMemoryDeviceUnitOfWork` inside a scope: the shared repository plus
the `_backup` shallow copy of `by_uuid` taken at `__enter__` (the dict is
copied; the device objects are shared). -/
structure UowState where
  repo : RepoState
  backup : List (String × Nat)
deriving DecidableEq, Repr

/-- `InMemoryDeviceUnitOfWork.__enter__`:
`self._backup = self._repository.get_all_by_uuid().copy()` — note this goes
through the public accessor, which tracks `seen`. -/
def uowEnter (repo : RepoState) : UowState :=
  let r := repo.get_all_by_uuid
  { repo := r.2, backup := r.1 }

/-- `commit()` → `_commit()`: a no-op for the in-memory implementation. -/
def UowState.commit (u : UowState) : UowState := u

/-- `InMemoryDeviceUnitOfWork.rollback`: `remove_all()` then re-`add` every
backed-up device object.  (`_backup` is a dict from `__init__`/`__enter__`,
never `None`, so the early-return guard is dead code.)  The re-added objects
are the live, possibly mutated ones: the backup shares them. -/
def UowState.rollback (u : UowState) : UowState :=
  let s := u.repo.remove_all
  { u with repo := u.backup.foldl (fun acc p => acc.add p.2) s }

/-- A Python exception value (its message). -/
abbrev PyErr := String

/-- The `with uow:` statement around a handler body:
`AbstractUnitOfWork.__exit__` runs `self.rollback()` unconditionally —
after a normal exit just as after an exception (the exception, if any,
then propagates). -/
def withUow (repo : RepoState) (body : UowState → UowState × Option PyErr) :
    RepoState × Option PyErr :=
  let u := uowEnter repo
  let r := body u
  ((r.1.rollback).repo, r.2)

/-! ## Command handlers (`core/service/handlers/command_handlers.py`)

Each handler takes the instant `now` at which `datetime.now()` is read. -/

/-- `NotFoundError` as raised by the handlers. -/
def notFoundError (uuid : String) : PyErr := "device " ++ uuid ++ " not found"

/-- `register_device`: constructs a `Device` with
`created_at=get_utc_tz_aware_datetime(datetime.now())` (a `datetime`
object), adds it, has it emit the registered event, and commits. -/
def register_device (cmd : Cmd) (now : Int) (repo : RepoState) :
    RepoState × Option PyErr :=
  withUow repo (fun u =>
    match cmd with
    | .registerDevice uuid name last_will ttl =>
      match Device.init uuid name last_will ttl (get_utc_tz_aware_datetime now) with
      | .error e => (u, some e)
      | .ok device =>
        let ar := u.repo.alloc device
        let s := ar.2.add ar.1
        let s := s.heapModify ar.1 Device.generate_event_register_device
        (({ u with repo := s }).commit, none)
    | _ => (u, some "AttributeError: command has no register fields"))

/-- `remove_device`: fetch by uuid (duck-typed `cmd.uuid`), raise
`NotFoundError` when absent, remove, emit the removed event, commit. -/
def remove_device (cmd : Cmd) (repo : RepoState) :
    RepoState × Option PyErr :=
  withUow repo (fun u =>
    let r := u.repo.get cmd.uuid
    match r.1 with
    | none => ({ u with repo := r.2 }, some (notFoundError cmd.uuid))
    | some ref =>
      let s := r.2.remove cmd.uuid
      let s := s.heapModify ref Device.generate_event_remove_device
      (({ u with repo := s }).commit, none))

/-- `keep_alive_device`: fetch by uuid, raise `NotFoundError` when absent,
update `fire_at` to `int(get_utc_tz_aware_datetime(datetime.now())
.timestamp()) + device.ttl`, emit the kept-alive event, commit. -/
def keep_alive_device (cmd : Cmd) (now : Int) (repo : RepoState) :
    RepoState × Option PyErr :=
  withUow repo (fun u =>
    let r := u.repo.get cmd.uuid
    match r.1 with
    | none => ({ u with repo := r.2 }, some (notFoundError cmd.uuid))
    | some ref =>
      match dget r.2.heap ref with
      | none => ({ u with repo := r.2 }, some "dangling reference")
      | some device =>
        let nfa := (get_utc_tz_aware_datetime now).timestampInt + device.ttl
        let s := r.2.update cmd.uuid { fire_at := some nfa, name := none }
        let s := s.heapModify ref Device.generate_event_keep_alive_device
        (({ u with repo := s }).commit, none))

/-! ## The message bus (`messagebus.py`)

`MessageBus` is generic in the state its injected handlers act on; the
handler maps are the constructor arguments.  `type(message)` is the
constructor tag of the command/event dataclass. -/

/-- The concrete command classes (dict keys of `COMMAND_HANDLERS`). -/
inductive CmdType
  | registerDevice | removeDevice | keepAliveDevice | consumer
deriving DecidableEq, Repr

/-- The concrete event classes (dict keys of `EVENT_HANDLERS`). -/
inductive EvType
  | registerDevice | removeDevice | keepAliveDevice
deriving DecidableEq, Repr

/-- `type(command)`. -/
def Cmd.type : Cmd → CmdType
  | .registerDevice _ _ _ _ => .registerDevice
  | .removeDevice _ => .removeDevice
  | .keepAliveDevice _ => .keepAliveDevice
  | .consumer _ _ => .consumer

/-- `type(event)`. -/
def Ev.type : Ev → EvType
  | .registerDevice _ _ _ _ _ => .registerDevice
  | .removeDevice _ => .removeDevice
  | .keepAliveDevice _ _ => .keepAliveDevice

/-- `Message = Union[Command, Event]`. -/
inductive Msg
  | cmd (c : Cmd)
  | ev (e : Ev)
deriving DecidableEq, Repr

/-- An exception escaping `MessageBus.handle`. -/
inductive BusErr
  | commandKeyError (t : CmdType)
  | commandError (t : CmdType) (e : PyErr)
  | eventKeyError (t : EvType)
deriving DecidableEq, Repr

/-- Is this a failure of command handling (lookup or handler exception)
rather than of event dispatch? -/
def BusErr.isCmdFailure : BusErr → Bool
  | .commandKeyError _ => true
  | .commandError _ _ => true
  | .eventKeyError _ => false

/-- `MessageBus(uow, event_handlers, command_handlers)`: the handler maps
plus `self.uow.collect_new_events()`, all acting on a state `σ`.  A handler
returns the state it reached and the exception it raised, if any. -/
structure MessageBus (σ : Type) where
  event_handlers : List (EvType × List (Ev → σ → σ × Option PyErr))
  command_handlers : List (CmdType × (Cmd → σ → σ × Option PyErr))
  collect : σ → σ × List Msg

/-- The loop body of `_handle_event`: run every handler of the list in
order; after each successful handler extend the queue with
`collect_new_events`; an exception is logged and the loop continues with
the next handler (the state changes the failing handler made persist). -/
def runEventHandlers {σ : Type} (bus : MessageBus σ) (e : Ev)
    (hs : List (Ev → σ → σ × Option PyErr)) (s : σ) (q : List Msg) :
    σ × List Msg :=
  hs.foldl (fun acc h =>
    let r := h e acc.1
    match r.2 with
    | none =>
      let c := bus.collect r.1
      (c.1, acc.2 ++ c.2)
    | some _ => (r.1, acc.2)) (s, q)

/-- `MessageBus.handle`: FIFO queue processing.  `fuel` bounds the number of
messages popped (the Python loop runs until the queue drains).
`self.event_handlers[type(event)]` and `self.command_handlers[type(command)]`
are plain subscriptions: a missing key raises `KeyError` — for an event it
escapes `handle` directly, for a command it is caught, logged and
re-raised.  A command handler exception is logged and re-raised; event
handler exceptions are logged and swallowed. -/
def handleLoop {σ : Type} (bus : MessageBus σ) :
    Nat → σ → List Msg → Option (σ × Option BusErr)
  | _, s, [] => some (s, none)
  | 0, _, _ :: _ => none
  | fuel + 1, s, m :: rest =>
    match m with
    | .ev e =>
      match dget bus.event_handlers e.type with
      | none => some (s, some (.eventKeyError e.type))
      | some hs =>
        let r := runEventHandlers bus e hs s rest
        handleLoop bus fuel r.1 r.2
    | .cmd c =>
      match dget bus.command_handlers c.type with
      | none => some (s, some (.commandKeyError c.type))
      | some h =>
        let r := h c s
        match r.2 with
        | some err => some (r.1, some (.commandError c.type err))
        | none =>
          let cl := bus.collect r.1
          handleLoop bus fuel cl.1 (rest ++ cl.2)

/-- `MessageBus.handle(message)` / dispatch: `self.queue = [message]`. -/
def MessageBus.handle {σ : Type} (bus : MessageBus σ) (fuel : Nat) (s : σ)
    (m : Msg) : Option (σ × Option BusErr) :=
  handleLoop bus fuel s [m]

/-! ## Bootstrap wiring (`bootstrap.py`) -/

/-- The handler functions of `command_handlers.py`, as referenced by
`COMMAND_HANDLERS`. -/
inductive CmdHandlerName
  | register_device | remove_device | keep_alive_device
deriving DecidableEq, Repr

/-- The handler functions of `event_handlers.py`. -/
inductive EvHandlerName
  | register_device_event | remove_device_event | keep_alive_device_event
deriving DecidableEq, Repr

/-- `EVENT_HANDLERS`: every event class maps to its one logging handler. -/
def EVENT_HANDLERS : List (EvType × List EvHandlerName) :=
  [(.registerDevice, [.register_device_event]),
   (.removeDevice, [.remove_device_event]),
   (.keepAliveDevice, [.keep_alive_device_event])]

/-- `COMMAND_HANDLERS`, exactly as the dict literal in `bootstrap.py`:
`RegisterDeviceCommand ↦ register_device`,
`ConsumerCommand ↦ remove_device`,
`KeepAliveDeviceCommand ↦ keep_alive_device`.
(`RemoveDeviceCommand` has no entry.) -/
def COMMAND_HANDLERS : List (CmdType × CmdHandlerName) :=
  [(.registerDevice, .register_device),
   (.consumer, .remove_device),
   (.keepAliveDevice, .keep_alive_device)]

/-- Dependency injection: each named command handler as a function on the
repository state, with the clock instant `now` injected. -/
def cmdHandlerFun (now : Int) :
    CmdHandlerName → Cmd → RepoState → RepoState × Option PyErr
  | .register_device => fun c s => register_device c now s
  | .remove_device => fun c s => remove_device c s
  | .keep_alive_device => fun c s => keep_alive_device c now s

/-- The three event handlers only emit a log line: no state change, no
exception. -/
def evHandlerFun : EvHandlerName → Ev → RepoState → RepoState × Option PyErr :=
  fun _ _ s => (s, none)

/-- `AbstractDeviceUnitOfWork.collect_new_events`: for every device in
`self.devices.seen`, drain its pending-event list, yielding the events. -/
def collect_new_events (s : RepoState) : RepoState × List Msg :=
  s.seen.foldl (fun acc ref =>
    match dget acc.1.heap ref with
    | none => acc
    | some d =>
      ({ acc.1 with heap := dset acc.1.heap ref { d with events := [] } },
       acc.2 ++ d.events.map Msg.ev)) (s, [])

/-- The bus built by `bootstrap()` over the shared in-memory repository. -/
def appBus (now : Int) : MessageBus RepoState :=
  { event_handlers := EVENT_HANDLERS.map (fun p => (p.1, p.2.map evHandlerFun)),
    command_handlers := COMMAND_HANDLERS.map (fun p => (p.1, cmdHandlerFun now p.2)),
    collect := collect_new_events }

/-! ## The fire poller (`scheduler/task.py`) -/

/-- `FirePoller`: tracks the last poll timestamp. -/
structure FirePoller where
  last_poll : Int
  interval_sec : Int
deriving DecidableEq, Repr

/-- `FirePoller.check_and_fire` at wall-clock instant `now`: query the
inclusive window `[last_poll + 1, now]` inside a unit-of-work scope (whose
exit rolls back, rebuilding the indexes from the backup), log each fired
device, then set `last_poll = now` regardless of firing outcomes.  Returns
the fired device references. -/
def FirePoller.check_and_fire (p : FirePoller) (now : Int) (repo : RepoState) :
    List Nat × RepoState × FirePoller :=
  let start_time := p.last_poll + 1
  let end_time := now
  let u := uowEnter repo
  let r := u.repo.get_fire_at_between start_time end_time
  let u' := ({ u with repo := r.2 }).rollback
  (r.1, u'.repo, { p with last_poll := now })

/-- A sequence of poller ticks at the given instants; returns the batches
of fired device references. -/
def runTicks (p : FirePoller) (repo : RepoState) :
    List Int → List (List Nat) × RepoState × FirePoller
  | [] => ([], repo, p)
  | now :: rest =>
    let t := p.check_and_fire now repo
    let r := runTicks t.2.2 t.2.1 rest
    (t.1 :: r.1, r.2)

/-! ## Repository well-formedness

The consistency of the two indexes of `InMemoryDeviceRepository`: every
uuid in a time bucket `by_fire_at[t]` belongs to a `by_uuid` entry whose
device has `fire_at == t`, and no bucket is empty. -/

/-- The invariant package of a repository state. -/
structure Wf (s : RepoState) : Prop where
  uuidKeysNodup : (dkeys s.by_uuid).Nodup
  fireKeysNodup : (dkeys s.by_fire_at).Nodup
  heapBound : ∀ r, s.nextRef ≤ r → dget s.heap r = none
  uuidRef : ∀ u ref, dget s.by_uuid u = some ref →
    ∃ d, dget s.heap ref = some d ∧ d.uuid = u
  bucketSound : ∀ t b, dget s.by_fire_at t = some b →
    b ≠ [] ∧ b.Nodup ∧ ∀ u ∈ b, ∃ ref d, dget s.by_uuid u = some ref ∧
      dget s.heap ref = some d ∧ d.fire_at = t

/-- Completeness of the time index: every stored device is still present in
its `fire_at` bucket (true until a range query consumes the bucket). -/
def FullIndex (s : RepoState) : Prop :=
  ∀ u ref d, dget s.by_uuid u = some ref → dget s.heap ref = some d →
    ∃ b, dget s.by_fire_at d.fire_at = some b ∧ u ∈ b

/-- Two states with the same heap and indexes (they may differ in the
`seen` bookkeeping). -/
def sameCore (s s' : RepoState) : Prop :=
  s'.heap = s.heap ∧ s'.nextRef = s.nextRef ∧ s'.by_uuid = s.by_uuid ∧
    s'.by_fire_at = s.by_fire_at

theorem sameCore_refl (s : RepoState) : sameCore s s := ⟨rfl, rfl, rfl, rfl⟩

theorem sameCore_trans {s1 s2 s3 : RepoState} (h1 : sameCore s1 s2)
    (h2 : sameCore s2 s3) : sameCore s1 s3 := by
  obtain ⟨a1, b1, c1, d1⟩ := h1
  obtain ⟨a2, b2, c2, d2⟩ := h2
  exact ⟨a2.trans a1, b2.trans b1, c2.trans c1, d2.trans d1⟩

theorem Wf_of_sameCore {s s' : RepoState} (hc : sameCore s s') (h : Wf s) :
    Wf s' := by
  obtain ⟨hh, hn, hu, hf⟩ := hc
  exact { uuidKeysNodup := hu ▸ h.uuidKeysNodup,
          fireKeysNodup := hf ▸ h.fireKeysNodup,
          heapBound := hh ▸ hn ▸ h.heapBound,
          uuidRef := hh ▸ hu ▸ h.uuidRef,
          bucketSound := hh ▸ hu ▸ hf ▸ h.bucketSound }

theorem FullIndex_of_sameCore {s s' : RepoState} (hc : sameCore s s')
    (h : FullIndex s) : FullIndex s' := by
  obtain ⟨hh, hn, hu, hf⟩ := hc
  intro u ref d h1 h2
  rw [hu] at h1
  rw [hh] at h2
  rw [hf]
  exact h u ref d h1 h2

theorem seenAdd_sameCore (s : RepoState) (ref : Nat) :
    sameCore s (s.seenAdd ref) := by
  unfold RepoState.seenAdd
  cases dget s.heap ref
  · exact sameCore_refl s
  · dsimp only
    split
    · exact sameCore_refl s
    · exact ⟨rfl, rfl, rfl, rfl⟩

theorem seenFoldPairs_sameCore (l : List (String × Nat)) (s : RepoState) :
    sameCore s (l.foldl (fun acc p => acc.seenAdd p.2) s) := by
  induction l generalizing s with
  | nil => exact sameCore_refl s
  | cons p rest ih =>
    exact sameCore_trans (seenAdd_sameCore s p.2) (ih (s.seenAdd p.2))

theorem seenFoldRefs_sameCore (l : List Nat) (s : RepoState) :
    sameCore s (l.foldl (fun acc ref => acc.seenAdd ref) s) := by
  induction l generalizing s with
  | nil => exact sameCore_refl s
  | cons r rest ih =>
    exact sameCore_trans (seenAdd_sameCore s r) (ih (s.seenAdd r))

theorem dget_append {α β : Type} [DecidableEq α] (m m' : List (α × β)) (k : α) :
    dget (m ++ m') k = ((dget m k).rec (dget m' k) (fun v => some v)) := by
  induction m with
  | nil => simp [dget]
  | cons p rest ih =>
    obtain ⟨pk, pv⟩ := p
    by_cases h : pk = k <;> simp [dget, h, ih]

theorem dget_bucketAdd (m : List (Int × List String)) (t : Int) (u : String)
    (t' : Int) :
    dget (bucketAdd m t u) t' =
      if t = t' then some (sadd ((dget m t).getD []) u) else dget m t' := by
  simp [bucketAdd]

theorem dget_bucketDiscardAndClean (m : List (Int × List String)) (t : Int)
    (u : String) (t' : Int) :
    dget (bucketDiscardAndClean m t u) t' =
      if t = t' then
        (if sdiscard ((dget m t).getD []) u = []
         then none else some (sdiscard ((dget m t).getD []) u))
      else dget m t' := by
  unfold bucketDiscardAndClean
  dsimp only
  by_cases ht : t = t'
  · subst ht
    by_cases hb : sdiscard ((dget m t).getD []) u = [] <;> simp [hb]
  · by_cases hb : sdiscard ((dget m t).getD []) u = [] <;> simp [hb, ht]

theorem bucketAdd_keysNodup {m : List (Int × List String)} (t : Int)
    (u : String) (h : (dkeys m).Nodup) : (dkeys (bucketAdd m t u)).Nodup :=
  dkeys_nodup_dset m t _ h

theorem bucketDiscardAndClean_keysNodup {m : List (Int × List String)} (t : Int)
    (u : String) (h : (dkeys m).Nodup) :
    (dkeys (bucketDiscardAndClean m t u)).Nodup := by
  unfold bucketDiscardAndClean
  dsimp only
  split
  · exact dkeys_nodup_dpop _ t (dkeys_nodup_dset m t _ h)
  · exact dkeys_nodup_dset m t _ h

/-- `alloc` returns a fresh live reference and leaves the rest of the
state intact. -/
theorem alloc_spec (s : RepoState) (d : Device) (h : Wf s) :
    dget (s.alloc d).2.heap (s.alloc d).1 = some d ∧
    (∀ r e, dget s.heap r = some e → dget (s.alloc d).2.heap r = some e) ∧
    (s.alloc d).2.by_uuid = s.by_uuid ∧
    (s.alloc d).2.by_fire_at = s.by_fire_at ∧
    Wf (s.alloc d).2 := by
  have hfresh : dget s.heap s.nextRef = none := h.heapBound s.nextRef le_rfl
  have hget : ∀ r, dget (s.heap ++ [(s.nextRef, d)]) r =
      if dget s.heap r = none then
        (if s.nextRef = r then some d else none) else dget s.heap r := by
    intro r
    rw [dget_append]
    cases hr : dget s.heap r <;> simp [dget]
  have hlive : dget (s.alloc d).2.heap (s.alloc d).1 = some d := by
    show dget (s.heap ++ [(s.nextRef, d)]) s.nextRef = some d
    rw [hget]
    simp [hfresh]
  have hext : ∀ r e, dget s.heap r = some e →
      dget (s.alloc d).2.heap r = some e := by
    intro r e he
    show dget (s.heap ++ [(s.nextRef, d)]) r = some e
    rw [hget, he]
    simp
  refine ⟨hlive, hext, rfl, rfl, ?_⟩
  refine { uuidKeysNodup := h.uuidKeysNodup,
           fireKeysNodup := h.fireKeysNodup, heapBound := ?_,
           uuidRef := ?_, bucketSound := ?_ }
  · intro r hr
    simp only [RepoState.alloc] at hr
    show dget (s.heap ++ [(s.nextRef, d)]) r = none
    have h1 : dget s.heap r = none := h.heapBound r (by omega)
    rw [hget, h1]
    have : s.nextRef ≠ r := by
      intro he
      omega
    simp [this]
  · intro u ref hu
    obtain ⟨e, he, heq⟩ := h.uuidRef u ref hu
    exact ⟨e, hext ref e he, heq⟩
  · intro t b hb
    obtain ⟨hne, hnd, hmem⟩ := h.bucketSound t b hb
    refine ⟨hne, hnd, ?_⟩
    intro u hu
    obtain ⟨ref, e, h1, h2, h3⟩ := hmem u hu
    exact ⟨ref, e, h1, hext ref e h2, h3⟩

/-- `_add` on a live reference, spelled out. -/
theorem _add_eq {s : RepoState} {ref : Nat} {d : Device}
    (hd : dget s.heap ref = some d) :
    s._add ref = { s with by_uuid := dset s.by_uuid d.uuid ref,
                          by_fire_at := bucketAdd s.by_fire_at d.fire_at d.uuid } := by
  simp [RepoState._add, hd]

/-- Adding a device whose uuid is not yet present preserves the invariant. -/
theorem Wf__add {s : RepoState} {ref : Nat} {d : Device} (h : Wf s)
    (hd : dget s.heap ref = some d)
    (hfresh : dget s.by_uuid d.uuid = none) :
    Wf (s._add ref) := by
  rw [_add_eq hd]
  refine { uuidKeysNodup := dkeys_nodup_dset _ _ _ h.uuidKeysNodup,
           fireKeysNodup := bucketAdd_keysNodup _ _ h.fireKeysNodup,
           heapBound := h.heapBound, uuidRef := ?_, bucketSound := ?_ }
  · intro u ref2 hu
    simp only [dget_dset] at hu
    by_cases he : d.uuid = u
    · simp [he] at hu
      exact ⟨d, hu ▸ hd, he⟩
    · simp [he] at hu
      exact h.uuidRef u ref2 hu
  · intro t b hb
    simp only [dget_bucketAdd] at hb
    by_cases ht : d.fire_at = t
    · simp only [ht, if_pos rfl] at hb
      cases hb
      set b0 := (dget s.by_fire_at t).getD [] with hb0
      have hb0nd : b0.Nodup := by
        rw [hb0]
        cases hx : dget s.by_fire_at t
        · simp
        · exact (h.bucketSound t _ hx).2.1
      have hb0mem : ∀ u ∈ b0, ∃ ref2 e, dget s.by_uuid u = some ref2 ∧
          dget s.heap ref2 = some e ∧ e.fire_at = t := by
        intro u hu
        cases hx : dget s.by_fire_at t with
        | none => rw [hb0] at hu; simp [hx] at hu
        | some bb =>
          rw [hb0] at hu
          simp only [hx, Option.getD_some] at hu
          exact (h.bucketSound t bb hx).2.2 u hu
      refine ⟨sadd_ne_nil _ _, sadd_nodup _ hb0nd, ?_⟩
      intro u hu
      rw [mem_sadd] at hu
      rcases hu with hu | hu
      · obtain ⟨ref2, e, h1, h2, h3⟩ := hb0mem u hu
        have hne : ¬ d.uuid = u := by
          intro he
          rw [he] at hfresh
          rw [hfresh] at h1
          cases h1
        refine ⟨ref2, e, ?_, h2, h3⟩
        simp [dget_dset, hne, h1]
      · subst hu
        exact ⟨ref, d, by simp [dget_dset], hd, ht⟩
    · simp only [ht, if_neg ht] at hb
      obtain ⟨hne, hnd, hmem⟩ := h.bucketSound t b hb
      refine ⟨hne, hnd, ?_⟩
      intro u hu
      obtain ⟨ref2, e, h1, h2, h3⟩ := hmem u hu
      have hne2 : ¬ d.uuid = u := by
        intro he
        rw [he] at hfresh
        rw [hfresh] at h1
        cases h1
      exact ⟨ref2, e, by simp [dget_dset, hne2, h1], h2, h3⟩

/-- Adding a fresh device also preserves index completeness. -/
theorem FullIndex__add {s : RepoState} {ref : Nat} {d : Device}
    (hfull : FullIndex s) (hd : dget s.heap ref = some d) :
    FullIndex (s._add ref) := by
  rw [_add_eq hd]
  intro u ref2 d2 hu hh
  simp only [dget_dset] at hu
  simp only at hh
  by_cases he : d.uuid = u
  · simp only [he, if_pos rfl] at hu
    cases hu
    rw [hd] at hh
    cases hh
    refine ⟨sadd ((dget s.by_fire_at d.fire_at).getD []) d.uuid, ?_, ?_⟩
    · rw [dget_bucketAdd]
      simp
    · rw [mem_sadd]
      right
      exact he.symm
  · simp only [he, if_neg he] at hu
    obtain ⟨b, hb, hub⟩ := hfull u ref2 d2 hu hh
    by_cases ht : d.fire_at = d2.fire_at
    · refine ⟨sadd ((dget s.by_fire_at d.fire_at).getD []) d.uuid, ?_, ?_⟩
      · rw [dget_bucketAdd]
        simp [ht]
      · rw [ht, hb]
        simp only [Option.getD_some]
        rw [mem_sadd]
        left
        exact hub
    · refine ⟨b, ?_, hub⟩
      rw [dget_bucketAdd]
      simp [ht, hb]

/-- Under the invariant, a reference determines the uuid that indexes it. -/
theorem Wf.ref_uuid {s : RepoState} (h : Wf s) {u : String} {ref : Nat}
    {d : Device} (hu : dget s.by_uuid u = some ref)
    (hd : dget s.heap ref = some d) : d.uuid = u := by
  obtain ⟨e, he, heq⟩ := h.uuidRef u ref hu
  rw [hd] at he
  cases he
  exact heq

/-- `_update` when the uuid is absent: no effect. -/
theorem _update_absent {s : RepoState} {uuid : String} (fields : UpdateFields)
    (h : dget s.by_uuid uuid = none) : s._update uuid fields = s := by
  unfold RepoState._update
  rw [h]

/-- The device value written back by `_update`'s `setattr` loop. -/
def updDevice (device : Device) (fields : UpdateFields) : Device :=
  { device with fire_at := fields.fire_at.getD device.fire_at,
                name := fields.name.getD device.name }

/-- `_update` without a `fire_at` change: only the heap object changes. -/
theorem _update_no_reindex {s : RepoState} {uuid : String}
    {fields : UpdateFields} {ref : Nat} {device : Device}
    (h1 : dget s.by_uuid uuid = some ref) (h2 : dget s.heap ref = some device)
    (h3 : fields.fire_at = none ∨ fields.fire_at = some device.fire_at) :
    s._update uuid fields =
      { s with heap := dset s.heap ref (updDevice device fields) } := by
  unfold RepoState._update
  simp only [h1, h2]
  rcases h3 with h3 | h3 <;> simp [h3, updDevice]

/-- `_update` with a changed `fire_at`: heap object plus re-bucketing. -/
theorem _update_reindex {s : RepoState} {uuid : String}
    {fields : UpdateFields} {ref : Nat} {device : Device} {nfa : Int}
    (h1 : dget s.by_uuid uuid = some ref) (h2 : dget s.heap ref = some device)
    (h3 : fields.fire_at = some nfa) (h4 : nfa ≠ device.fire_at) :
    s._update uuid fields =
      { s with heap := dset s.heap ref (updDevice device fields),
               by_fire_at := bucketAdd
                 (bucketDiscardAndClean s.by_fire_at device.fire_at uuid)
                 nfa uuid } := by
  unfold RepoState._update
  simp only [h1, h2, h3]
  simp [h4, updDevice, h3]

/-- `_update` preserves the invariant. -/
theorem Wf__update {s : RepoState} (uuid : String) (fields : UpdateFields)
    (h : Wf s) : Wf (s._update uuid fields) := by
  cases href : dget s.by_uuid uuid with
  | none => rw [_update_absent fields href]; exact h
  | some ref =>
    cases hdev : dget s.heap ref with
    | none =>
      have : s._update uuid fields = s := by
        unfold RepoState._update
        simp only [href, hdev]
      rw [this]
      exact h
    | some device =>
      have hduuid : device.uuid = uuid := h.ref_uuid href hdev
      have hBound : ∀ (D' : Device) r, s.nextRef ≤ r →
          dget (dset s.heap ref D') r = none := by
        intro D' r hr
        have hrr : ¬ ref = r := by
          intro he
          rw [he] at hdev
          rw [h.heapBound r hr] at hdev
          cases hdev
        rw [dget_dset]
        simp [hrr, h.heapBound r hr]
      have hURef : ∀ (D' : Device), D'.uuid = device.uuid →
          ∀ u ref2, dget s.by_uuid u = some ref2 →
          ∃ d, dget (dset s.heap ref D') ref2 = some d ∧ d.uuid = u := by
        intro D' hDu u ref2 hu
        by_cases hr2 : ref = ref2
        · subst hr2
          refine ⟨D', by simp [dget_dset], ?_⟩
          rw [hDu, hduuid]
          obtain ⟨e, he, heq⟩ := h.uuidRef u ref hu
          rw [hdev] at he
          cases he
          rw [← hduuid, heq]
        · obtain ⟨e, he, heq⟩ := h.uuidRef u ref2 hu
          refine ⟨e, ?_, heq⟩
          rw [dget_dset]
          simp [hr2, he]
      have hUD : (updDevice device fields).uuid = device.uuid := rfl
      by_cases hreidx : ∃ nfa, fields.fire_at = some nfa ∧ nfa ≠ device.fire_at
      · -- the re-bucketing case
        obtain ⟨nfa, hfa, hch⟩ := hreidx
        rw [_update_reindex href hdev hfa hch]
        have hUfa : (updDevice device fields).fire_at = nfa := by
          simp [updDevice, hfa]
        refine { uuidKeysNodup := h.uuidKeysNodup, fireKeysNodup := ?_,
                 heapBound := hBound _, uuidRef := hURef _ hUD,
                 bucketSound := ?_ }
        · exact bucketAdd_keysNodup _ _
            (bucketDiscardAndClean_keysNodup _ _ h.fireKeysNodup)
        intro t b hb
        simp only at hb
        rw [dget_bucketAdd] at hb
        by_cases htn : nfa = t
        · subst htn
          simp only [if_pos rfl] at hb
          cases hb
          have holdn : ¬ device.fire_at = nfa := fun he => hch he.symm
          have hclean : (dget (bucketDiscardAndClean s.by_fire_at
              device.fire_at uuid) nfa) = dget s.by_fire_at nfa := by
            rw [dget_bucketDiscardAndClean]
            simp [holdn]
          rw [hclean]
          set b0 := (dget s.by_fire_at nfa).getD [] with hb0
          have hb0nd : b0.Nodup := by
            rw [hb0]
            cases hx : dget s.by_fire_at nfa
            · simp
            · exact (h.bucketSound nfa _ hx).2.1
          refine ⟨sadd_ne_nil _ _, sadd_nodup _ hb0nd, ?_⟩
          intro u hu
          rw [mem_sadd] at hu
          rcases hu with hu | hu
          · cases hx : dget s.by_fire_at nfa with
            | none =>
              rw [hb0] at hu
              simp [hx] at hu
            | some bb =>
              rw [hb0] at hu
              simp only [hx, Option.getD_some] at hu
              obtain ⟨ref2, d2, h1, h2, h3⟩ :=
                (h.bucketSound nfa bb hx).2.2 u hu
              have hr2 : ¬ ref = ref2 := by
                intro he
                rw [← he] at h2
                rw [hdev] at h2
                cases h2
                exact hch h3.symm
              exact ⟨ref2, d2, h1, by rw [dget_dset]; simp [hr2, h2], h3⟩
          · subst hu
            refine ⟨ref, updDevice device fields, href, ?_, hUfa⟩
            simp [dget_dset]
        · rw [if_neg htn] at hb
          rw [dget_bucketDiscardAndClean] at hb
          by_cases hto : device.fire_at = t
          · subst hto
            rw [if_pos rfl] at hb
            set b0 := (dget s.by_fire_at device.fire_at).getD [] with hb0
            by_cases hdisc : sdiscard b0 uuid = []
            · simp [hdisc] at hb
            · simp only [hdisc, if_neg] at hb
              cases hb
              have hb0nd : b0.Nodup := by
                rw [hb0]
                cases hx : dget s.by_fire_at device.fire_at
                · simp
                · exact (h.bucketSound device.fire_at _ hx).2.1
              refine ⟨hdisc, sdiscard_nodup _ hb0nd, ?_⟩
              intro u hu
              rw [mem_sdiscard hb0nd] at hu
              obtain ⟨hub0, hne⟩ := hu
              cases hx : dget s.by_fire_at device.fire_at with
              | none =>
                rw [hb0] at hub0
                simp [hx] at hub0
              | some bb =>
                rw [hb0] at hub0
                simp only [hx, Option.getD_some] at hub0
                obtain ⟨ref2, d2, h1, h2, h3⟩ :=
                  (h.bucketSound device.fire_at bb hx).2.2 u hub0
                have hr2 : ¬ ref = ref2 := by
                  intro he
                  rw [← he] at h1
                  have := h.ref_uuid h1 hdev
                  exact hne (by rw [← this, hduuid])
                exact ⟨ref2, d2, h1, by rw [dget_dset]; simp [hr2, h2], h3⟩
          · rw [if_neg hto] at hb
            obtain ⟨hne, hnd, hmem⟩ := h.bucketSound t b hb
            refine ⟨hne, hnd, ?_⟩
            intro u hu
            obtain ⟨ref2, d2, h1, h2, h3⟩ := hmem u hu
            have hr2 : ¬ ref = ref2 := by
              intro he
              rw [← he] at h2
              rw [hdev] at h2
              cases h2
              exact hto h3
            exact ⟨ref2, d2, h1, by rw [dget_dset]; simp [hr2, h2], h3⟩
      · -- no re-bucketing: `fire_at` not given, or unchanged
        push_neg at hreidx
        have h3 : fields.fire_at = none ∨ fields.fire_at = some device.fire_at := by
          cases hfa : fields.fire_at with
          | none => exact Or.inl rfl
          | some nfa =>
            right
            rw [hreidx nfa hfa]
        have hUfa : (updDevice device fields).fire_at = device.fire_at := by
          rcases h3 with h3 | h3 <;> simp [updDevice, h3]
        rw [_update_no_reindex href hdev h3]
        refine { uuidKeysNodup := h.uuidKeysNodup,
                 fireKeysNodup := h.fireKeysNodup,
                 heapBound := hBound _, uuidRef := hURef _ hUD,
                 bucketSound := ?_ }
        intro t b hb
        obtain ⟨hne, hnd, hmem⟩ := h.bucketSound t b hb
        refine ⟨hne, hnd, ?_⟩
        intro u hu
        obtain ⟨ref2, d2, h1, h2, h3'⟩ := hmem u hu
        by_cases hr2 : ref = ref2
        · subst hr2
          rw [hdev] at h2
          cases h2
          refine ⟨ref, updDevice device fields, h1, by simp [dget_dset], ?_⟩
          rw [hUfa]
          exact h3'
        · exact ⟨ref2, d2, h1, by rw [dget_dset]; simp [hr2, h2], h3'⟩

/-- `_remove` when the uuid is absent: no effect. -/
theorem _remove_absent {s : RepoState} {uuid : String}
    (h : dget s.by_uuid uuid = none) : s._remove uuid = s := by
  unfold RepoState._remove
  rw [h]

/-- `_remove` of a present device, spelled out. -/
theorem _remove_present {s : RepoState} {uuid : String} {ref : Nat}
    {device : Device} (h1 : dget s.by_uuid uuid = some ref)
    (h2 : dget s.heap ref = some device) :
    s._remove uuid =
      { s with by_uuid := dpop s.by_uuid uuid,
               by_fire_at :=
                 bucketDiscardAndClean s.by_fire_at device.fire_at uuid } := by
  unfold RepoState._remove
  simp only [h1, h2]

/-- `_remove` preserves the invariant. -/
theorem Wf__remove {s : RepoState} (uuid : String) (h : Wf s) :
    Wf (s._remove uuid) := by
  cases href : dget s.by_uuid uuid with
  | none => rw [_remove_absent href]; exact h
  | some ref =>
    cases hdev : dget s.heap ref with
    | none =>
      have : s._remove uuid = { s with by_uuid := dpop s.by_uuid uuid } := by
        unfold RepoState._remove
        simp only [href, hdev]
      rw [this]
      refine { uuidKeysNodup := dkeys_nodup_dpop _ _ h.uuidKeysNodup,
               fireKeysNodup := h.fireKeysNodup, heapBound := h.heapBound,
               uuidRef := ?_, bucketSound := ?_ }
      · intro u ref2 hu
        simp only [dget_dpop] at hu
        by_cases he : uuid = u
        · simp [he] at hu
        · simp only [he, if_neg he] at hu
          exact h.uuidRef u ref2 hu
      · intro t b hb
        obtain ⟨hne, hnd, hmem⟩ := h.bucketSound t b hb
        refine ⟨hne, hnd, ?_⟩
        intro u hu
        obtain ⟨ref2, d2, hu1, hu2, hu3⟩ := hmem u hu
        have he : ¬ uuid = u := by
          intro he
          rw [← he] at hu1
          rw [href] at hu1
          cases hu1
          rw [hdev] at hu2
          cases hu2
        exact ⟨ref2, d2, by simp [dget_dpop, he, hu1], hu2, hu3⟩
    | some device =>
      rw [_remove_present href hdev]
      refine { uuidKeysNodup := dkeys_nodup_dpop _ _ h.uuidKeysNodup,
               fireKeysNodup := ?_, heapBound := h.heapBound,
               uuidRef := ?_, bucketSound := ?_ }
      · exact bucketDiscardAndClean_keysNodup _ _ h.fireKeysNodup
      · intro u ref2 hu
        simp only [dget_dpop] at hu
        by_cases he : uuid = u
        · simp [he] at hu
        · simp only [he, if_neg he] at hu
          exact h.uuidRef u ref2 hu
      · intro t b hb
        simp only at hb
        rw [dget_bucketDiscardAndClean] at hb
        by_cases hto : device.fire_at = t
        · subst hto
          rw [if_pos rfl] at hb
          set b0 := (dget s.by_fire_at device.fire_at).getD [] with hb0
          by_cases hdisc : sdiscard b0 uuid = []
          · simp [hdisc] at hb
          · simp only [hdisc, if_neg] at hb
            cases hb
            have hb0nd : b0.Nodup := by
              rw [hb0]
              cases hx : dget s.by_fire_at device.fire_at
              · simp
              · exact (h.bucketSound device.fire_at _ hx).2.1
            refine ⟨hdisc, sdiscard_nodup _ hb0nd, ?_⟩
            intro u hu
            rw [mem_sdiscard hb0nd] at hu
            obtain ⟨hub0, hne⟩ := hu
            cases hx : dget s.by_fire_at device.fire_at with
            | none =>
              rw [hb0] at hub0
              simp [hx] at hub0
            | some bb =>
              rw [hb0] at hub0
              simp only [hx, Option.getD_some] at hub0
              obtain ⟨ref2, d2, h1, h2, h3⟩ :=
                (h.bucketSound device.fire_at bb hx).2.2 u hub0
              have he : ¬ uuid = u := fun he => hne he.symm
              exact ⟨ref2, d2, by simp [dget_dpop, he, h1], h2, h3⟩
        · rw [if_neg hto] at hb
          obtain ⟨hne, hnd, hmem⟩ := h.bucketSound t b hb
          refine ⟨hne, hnd, ?_⟩
          intro u hu
          obtain ⟨ref2, d2, h1, h2, h3⟩ := hmem u hu
          have he : ¬ uuid = u := by
            intro he
            rw [← he] at h1
            rw [href] at h1
            cases h1
            rw [hdev] at h2
            cases h2
            exact hto h3
          exact ⟨ref2, d2, by simp [dget_dpop, he, h1], h2, h3⟩

/-- `_remove_all` preserves the invariant. -/
theorem Wf__remove_all {s : RepoState} (h : Wf s) : Wf s._remove_all := by
  refine { uuidKeysNodup := by simp [RepoState._remove_all, dkeys],
           fireKeysNodup := by simp [RepoState._remove_all, dkeys],
           heapBound := h.heapBound, uuidRef := ?_, bucketSound := ?_ }
  · intro u ref hu
    simp [RepoState._remove_all, dget] at hu
  · intro t b hb
    simp [RepoState._remove_all, dget] at hb

theorem intRange_mem (a b t : Int) : t ∈ intRange a b ↔ a ≤ t ∧ t ≤ b := by
  unfold intRange
  rw [List.mem_map]
  constructor
  · rintro ⟨i, hi, rfl⟩
    rw [List.mem_range] at hi
    omega
  · rintro ⟨h1, h2⟩
    refine ⟨(t - a).toNat, ?_, ?_⟩
    · rw [List.mem_range]
      omega
    · omega

theorem intRange_nodup (a b : Int) : (intRange a b).Nodup := by
  refine (List.nodup_range _).map ?_
  intro i j hij
  simp only at hij
  omega

/-- The reference list collected by `_get_fire_at_between`, expressed over
the state at the start of the loop. -/
def collectRange (fire : List (Int × List String)) (bu : List (String × Nat)) :
    List Int → List Nat
  | [] => []
  | ts :: rest =>
    ((dget fire ts).getD []).filterMap (fun u => dget bu u) ++
      collectRange fire bu rest

theorem collectRange_congr {fire fire' : List (Int × List String)}
    {bu : List (String × Nat)} (range : List Int)
    (h : ∀ t ∈ range, dget fire' t = dget fire t) :
    collectRange fire' bu range = collectRange fire bu range := by
  induction range with
  | nil => rfl
  | cons t2 r2 ih =>
    simp only [collectRange]
    rw [h t2 (List.mem_cons_self t2 r2), ih (fun t ht => h t (List.mem_cons_of_mem _ ht))]

/-- Characterization of the `_get_fire_at_between` fold: the collected
references, the untouched components, the popped buckets, and the fact that
the bucket dictionary only shrinks. -/
theorem foldFire_spec (range : List Int) (hnd : range.Nodup) (acc : List Nat)
    (s : RepoState) :
    (range.foldl fireStep (acc, s)).1 =
        acc ++ collectRange s.by_fire_at s.by_uuid range ∧
    (range.foldl fireStep (acc, s)).2.heap = s.heap ∧
    (range.foldl fireStep (acc, s)).2.nextRef = s.nextRef ∧
    (range.foldl fireStep (acc, s)).2.by_uuid = s.by_uuid ∧
    (range.foldl fireStep (acc, s)).2.seen = s.seen ∧
    (range.foldl fireStep (acc, s)).2.by_fire_at.Sublist s.by_fire_at ∧
    (∀ t, dget (range.foldl fireStep (acc, s)).2.by_fire_at t =
      if t ∈ range then none else dget s.by_fire_at t) := by
  induction range generalizing acc s with
  | nil => simp [collectRange]
  | cons ts rest ih =>
    have hnd' : rest.Nodup := hnd.of_cons
    have hts : ts ∉ rest := (List.nodup_cons.mp hnd).1
    set s1 : RepoState := { s with by_fire_at := dpop s.by_fire_at ts } with hs1
    have hstep : fireStep (acc, s) ts =
        (acc ++ ((dget s.by_fire_at ts).getD []).filterMap
          (fun u => dget s.by_uuid u), s1) := by
      simp [fireStep, RepoState._get, hs1]
    have hfold : (ts :: rest).foldl fireStep (acc, s) =
        rest.foldl fireStep (fireStep (acc, s) ts) := rfl
    rw [hfold, hstep]
    obtain ⟨ih1, ih2, ih3, ih4, ih5, ih6, ih7⟩ := ih hnd' _ s1
    have hbu : s1.by_uuid = s.by_uuid := rfl
    have hcoll : collectRange s1.by_fire_at s1.by_uuid rest =
        collectRange s.by_fire_at s.by_uuid rest := by
      refine collectRange_congr rest ?_
      intro t2 ht2
      have hne : ¬ ts = t2 := by
        intro he
        rw [he] at hts
        exact hts ht2
      rw [hs1]
      simp [dget_dpop, hne]
    refine ⟨?_, ih2, ih3, ih4, ih5, ?_, ?_⟩
    · rw [ih1, hcoll, hbu]
      simp [collectRange]
    · exact ih6.trans (List.filter_sublist _)
    · intro t
      rw [ih7 t]
      by_cases hmem : t ∈ rest
      · simp [hmem]
      · simp only [hmem, if_neg hmem]
        by_cases het : ts = t
        · subst het
          simp [hs1, dget_dpop, List.mem_cons]
        · have hnotin : ¬ t ∈ ts :: rest := by
            intro hc
            rcases List.mem_cons.mp hc with hc | hc
            · exact het hc.symm
            · exact hmem hc
          simp [hnotin, hs1, dget_dpop, het]

/-- The range query preserves the invariant (it only pops buckets). -/
theorem Wf_fire_between {s : RepoState} (a b : Int) (h : Wf s) :
    Wf (s._get_fire_at_between a b).2 := by
  obtain ⟨h1, h2, h3, h4, h5, h6, h7⟩ :=
    foldFire_spec (intRange a b) (intRange_nodup a b) [] s
  unfold RepoState._get_fire_at_between
  refine { uuidKeysNodup := ?_, fireKeysNodup := ?_, heapBound := ?_,
           uuidRef := ?_, bucketSound := ?_ }
  · rw [h4]
    exact h.uuidKeysNodup
  · exact ((h6.map Prod.fst).nodup) h.fireKeysNodup
  · intro r hr
    rw [h2]
    rw [h3] at hr
    exact h.heapBound r hr
  · intro u ref hu
    rw [h4] at hu
    rw [h2]
    exact h.uuidRef u ref hu
  · intro t bb hb
    rw [h7 t] at hb
    by_cases hmem : t ∈ intRange a b
    · simp [hmem] at hb
    · simp only [hmem, if_neg hmem] at hb
      obtain ⟨hne, hnd, hmem2⟩ := h.bucketSound t bb hb
      refine ⟨hne, hnd, ?_⟩
      intro u hu
      obtain ⟨ref2, d2, hx1, hx2, hx3⟩ := hmem2 u hu
      rw [h4, h2]
      exact ⟨ref2, d2, hx1, hx2, hx3⟩

theorem dget_eq_of_mem_nodup {α β : Type} [DecidableEq α]
    {m : List (α × β)} (hnd : (dkeys m).Nodup) {k : α} {v : β}
    (h : (k, v) ∈ m) : dget m k = some v := by
  induction m with
  | nil => cases h
  | cons p rest ih =>
    obtain ⟨pk, pv⟩ := p
    rcases List.mem_cons.mp h with h | h
    · rw [Prod.mk.injEq] at h
      obtain ⟨h1, h2⟩ := h
      simp [dget, h1, h2]
    · have hk : ¬ pk = k := by
        intro he
        subst he
        have : pk ∈ dkeys rest := by
          simp only [dkeys, List.mem_map]
          exact ⟨(pk, v), h, rfl⟩
        exact (List.nodup_cons.mp hnd).1 this
      simp only [dget, hk, if_neg hk]
      exact ih (List.nodup_cons.mp hnd).2 h

theorem dset_append_of_absent {α β : Type} [DecidableEq α]
    {m : List (α × β)} {k : α} (v : β) (h : dget m k = none) :
    dset m k v = m ++ [(k, v)] := by
  induction m with
  | nil => rfl
  | cons p rest ih =>
    obtain ⟨pk, pv⟩ := p
    by_cases hk : pk = k
    · rw [dget_cons, if_pos hk] at h
      cases h
    · rw [dget_cons, if_neg hk] at h
      simp [dset, hk, ih h]

theorem seenAdd_eq (s : RepoState) (ref : Nat) :
    ∃ sn, s.seenAdd ref = { s with seen := sn } := by
  unfold RepoState.seenAdd
  cases dget s.heap ref
  · exact ⟨s.seen, rfl⟩
  · dsimp only
    split
    · exact ⟨s.seen, rfl⟩
    · exact ⟨_, rfl⟩

/-- `heapModify` by a uuid/fire_at-preserving mutation keeps the invariant
(used for the in-place event-list mutations of the aggregates). -/
theorem Wf_heapModify {s : RepoState} {ref : Nat} {f : Device → Device}
    (hf : ∀ d, (f d).uuid = d.uuid ∧ (f d).fire_at = d.fire_at)
    (h : Wf s) : Wf (s.heapModify ref f) := by
  unfold RepoState.heapModify
  cases hd : dget s.heap ref with
  | none => exact h
  | some d =>
    dsimp only
    have hheap : ∀ r, dget (dset s.heap ref (f d)) r =
        if ref = r then some (f d) else dget s.heap r := by
      intro r
      rw [dget_dset]
    refine { uuidKeysNodup := h.uuidKeysNodup,
             fireKeysNodup := h.fireKeysNodup, heapBound := ?_,
             uuidRef := ?_, bucketSound := ?_ }
    · intro r hr
      rw [hheap]
      have : ¬ ref = r := by
        intro he
        rw [he] at hd
        rw [h.heapBound r hr] at hd
        cases hd
      simp [this, h.heapBound r hr]
    · intro uu ref2 hu
      obtain ⟨e, he, heq⟩ := h.uuidRef uu ref2 hu
      by_cases hr : ref = ref2
      · subst hr
        rw [hd] at he
        cases he
        exact ⟨f d, by rw [hheap]; simp, by rw [(hf d).1]; exact heq⟩
      · exact ⟨e, by rw [hheap]; simp [hr, he], heq⟩
    · intro t b hb
      obtain ⟨hne, hnd, hmem⟩ := h.bucketSound t b hb
      refine ⟨hne, hnd, ?_⟩
      intro uu hu
      obtain ⟨ref2, d2, h1, h2, h3⟩ := hmem uu hu
      by_cases hr : ref = ref2
      · subst hr
        rw [hd] at h2
        cases h2
        exact ⟨ref, f d, h1, by rw [hheap]; simp, by rw [(hf d).2]; exact h3⟩
      · exact ⟨ref2, d2, h1, by rw [hheap]; simp [hr, h2], h3⟩

/-- Folding the public `add` over uuid-labelled live references (as the
rollback re-population does). -/
theorem foldAdd_spec (pairs : List (String × Nat)) (s : RepoState)
    (hw : Wf s) (hfull : FullIndex s)
    (hnd : (pairs.map Prod.fst).Nodup)
    (hvals : ∀ p ∈ pairs, ∃ d, dget s.heap p.2 = some d ∧ d.uuid = p.1)
    (hfresh : ∀ p ∈ pairs, dget s.by_uuid p.1 = none) :
    (pairs.foldl (fun acc p => acc.add p.2) s).by_uuid = s.by_uuid ++ pairs ∧
    (pairs.foldl (fun acc p => acc.add p.2) s).heap = s.heap ∧
    (pairs.foldl (fun acc p => acc.add p.2) s).nextRef = s.nextRef ∧
    Wf (pairs.foldl (fun acc p => acc.add p.2) s) ∧
    FullIndex (pairs.foldl (fun acc p => acc.add p.2) s) := by
  induction pairs generalizing s with
  | nil => exact ⟨by simp, rfl, rfl, hw, hfull⟩
  | cons p rest ih =>
    obtain ⟨pu, pref⟩ := p
    obtain ⟨d, hd, hdu⟩ := hvals (pu, pref) (List.mem_cons_self _ _)
    have hfr : dget s.by_uuid d.uuid = none := by
      rw [hdu]
      exact hfresh (pu, pref) (List.mem_cons_self _ _)
    -- one step of the fold
    have hWadd : Wf (s._add pref) := Wf__add hw hd hfr
    have hFadd : FullIndex (s._add pref) := FullIndex__add hfull hd
    obtain ⟨sn, hsn⟩ := seenAdd_eq (s._add pref) pref
    have hcore : sameCore (s._add pref) (s.add pref) := by
      unfold RepoState.add
      rw [hsn]
      exact ⟨rfl, rfl, rfl, rfl⟩
    have hby : (s.add pref).by_uuid = s.by_uuid ++ [(pu, pref)] := by
      rw [hcore.2.2.1]
      rw [_add_eq hd]
      simp only
      rw [hdu] at hfr ⊢
      exact dset_append_of_absent pref hfr
    have hheap : (s.add pref).heap = s.heap := by
      rw [hcore.1, _add_eq hd]
    have hnext : (s.add pref).nextRef = s.nextRef := by
      rw [hcore.2.1, _add_eq hd]
    have hWadd' : Wf (s.add pref) := Wf_of_sameCore hcore hWadd
    have hFadd' : FullIndex (s.add pref) := FullIndex_of_sameCore hcore hFadd
    have hnd' : (rest.map Prod.fst).Nodup := (List.nodup_cons.mp hnd).2
    have hvals' : ∀ q ∈ rest, ∃ e, dget (s.add pref).heap q.2 = some e ∧
        e.uuid = q.1 := by
      intro q hq
      rw [hheap]
      exact hvals q (List.mem_cons_of_mem _ hq)
    have hfresh' : ∀ q ∈ rest, dget (s.add pref).by_uuid q.1 = none := by
      intro q hq
      rw [hby, dget_append, hfresh q (List.mem_cons_of_mem _ hq)]
      have : ¬ pu = q.1 := by
        intro he
        have : q.1 ∈ rest.map Prod.fst := List.mem_map_of_mem Prod.fst hq
        rw [← he] at this
        exact (List.nodup_cons.mp hnd).1 this
      simp [dget, this]
    obtain ⟨ih1, ih2, ih3, ih4, ih5⟩ := ih (s.add pref) hWadd' hFadd' hnd' hvals' hfresh'
    have hfold : ((pu, pref) :: rest).foldl (fun acc q => acc.add q.2) s =
        rest.foldl (fun acc q => acc.add q.2) (s.add pref) := rfl
    rw [hfold]
    refine ⟨?_, by rw [ih2, hheap], by rw [ih3, hnext], ih4, ih5⟩
    rw [ih1, hby]
    simp

theorem seenFoldPairs_eq (l : List (String × Nat)) (s : RepoState) :
    ∃ sn, l.foldl (fun acc p => acc.seenAdd p.2) s = { s with seen := sn } := by
  induction l generalizing s with
  | nil => exact ⟨s.seen, rfl⟩
  | cons p rest ih =>
    obtain ⟨sn0, h0⟩ := seenAdd_eq s p.2
    obtain ⟨sn1, h1⟩ := ih (s.seenAdd p.2)
    refine ⟨sn1, ?_⟩
    have : (p :: rest).foldl (fun acc q => acc.seenAdd q.2) s =
        rest.foldl (fun acc q => acc.seenAdd q.2) (s.seenAdd p.2) := rfl
    rw [this, h1, h0]

/-- Under the invariant, an empty uuid index forces an empty time index
(every bucket is non-empty and backed by a uuid entry). -/
theorem by_fire_at_nil_of_by_uuid_nil {s : RepoState} (h : Wf s)
    (hu : s.by_uuid = []) : s.by_fire_at = [] := by
  cases hf : s.by_fire_at with
  | nil => rfl
  | cons p rest =>
    obtain ⟨t, b⟩ := p
    have hb : dget s.by_fire_at t = some b := by
      rw [hf]
      simp [dget]
    obtain ⟨hne, hnd, hmem⟩ := h.bucketSound t b hb
    cases hbb : b with
    | nil => exact absurd hbb hne
    | cons u bu =>
      obtain ⟨ref, d, h1, h2, h3⟩ := hmem u (by rw [hbb]; exact List.mem_cons_self u bu)
      rw [hu] at h1
      cases h1

/-- `remove_all` (public) clears both indexes and only touches `seen`
otherwise, given the invariant. -/
theorem remove_all_core {s : RepoState} (h : Wf s) :
    ∃ sn, s.remove_all = { heap := s.heap, nextRef := s.nextRef,
                           by_uuid := [], by_fire_at := [], seen := sn } := by
  by_cases hnil : s.by_uuid = []
  · have hfnil : s.by_fire_at = [] := by_fire_at_nil_of_by_uuid_nil h hnil
    have h1 : s.get_all_by_uuid = (s.by_uuid, s) := by
      unfold RepoState.get_all_by_uuid RepoState._get_all_by_uuid
      dsimp only
      rw [if_pos hnil]
    have h2 : s.remove_all = s := by
      unfold RepoState.remove_all
      rw [h1]
      dsimp only
      rw [if_pos hnil]
    refine ⟨s.seen, ?_⟩
    rw [h2, ← hnil, ← hfnil]
  · obtain ⟨sn1, hsn1⟩ := seenFoldPairs_eq s.by_uuid s
    have h1 : s.get_all_by_uuid = (s.by_uuid, { s with seen := sn1 }) := by
      unfold RepoState.get_all_by_uuid RepoState._get_all_by_uuid
      dsimp only
      rw [if_neg hnil, hsn1]
    obtain ⟨sn2, hsn2⟩ := seenFoldPairs_eq s.by_uuid
      (RepoState._remove_all { s with seen := sn1 })
    refine ⟨sn2, ?_⟩
    unfold RepoState.remove_all
    rw [h1]
    dsimp only
    rw [if_neg hnil, hsn2]
    rfl

/-- `InMemoryDeviceUnitOfWork.rollback` rebuilds the store from the backup:
the uuid index comes back exactly (the same dict contents, in order), the
heap and allocator are untouched, and the rebuilt time index is fully
consistent with the current (possibly mutated) device objects. -/
theorem rollback_spec (s0 : RepoState) (u : UowState)
    (hb : u.backup = s0.by_uuid)
    (hn : (dkeys s0.by_uuid).Nodup)
    (hw : Wf u.repo)
    (hu : ∀ uu ref, dget s0.by_uuid uu = some ref →
      ∃ d, dget u.repo.heap ref = some d ∧ d.uuid = uu) :
    u.rollback.repo.by_uuid = s0.by_uuid ∧
    u.rollback.repo.heap = u.repo.heap ∧
    u.rollback.repo.nextRef = u.repo.nextRef ∧
    Wf u.rollback.repo ∧ FullIndex u.rollback.repo := by
  obtain ⟨sn, hsn⟩ := remove_all_core hw
  set s1 : RepoState := { heap := u.repo.heap, nextRef := u.repo.nextRef,
                          by_uuid := [], by_fire_at := [], seen := sn } with hs1
  have hw1 : Wf s1 := by
    refine { uuidKeysNodup := by simp [hs1, dkeys],
             fireKeysNodup := by simp [hs1, dkeys],
             heapBound := hw.heapBound, uuidRef := ?_, bucketSound := ?_ }
    · intro uu ref hx
      rw [hs1] at hx
      simp [dget] at hx
    · intro t b hx
      rw [hs1] at hx
      simp [dget] at hx
  have hf1 : FullIndex s1 := by
    intro uu ref d hx
    rw [hs1] at hx
    simp [dget] at hx
  have hvals : ∀ p ∈ u.backup, ∃ d, dget s1.heap p.2 = some d ∧ d.uuid = p.1 := by
    intro p hp
    rw [hb] at hp
    obtain ⟨d, hd, hdu⟩ := hu p.1 p.2 (dget_eq_of_mem_nodup hn hp)
    exact ⟨d, hd, hdu⟩
  have hfresh : ∀ p ∈ u.backup, dget s1.by_uuid p.1 = none := by
    intro p _
    rw [hs1]
    simp [dget]
  have hnd : (u.backup.map Prod.fst).Nodup := by
    rw [hb]
    exact hn
  obtain ⟨f1, f2, f3, f4, f5⟩ := foldAdd_spec u.backup s1 hw1 hf1 hnd hvals hfresh
  have hroll : u.rollback.repo = u.backup.foldl (fun acc p => acc.add p.2)
      u.repo.remove_all := rfl
  rw [hroll, hsn]
  refine ⟨?_, f2, f3, f4, f5⟩
  rw [f1, hb]
  simp [hs1]

/-- `_update` ignores and preserves the `seen` bookkeeping. -/
theorem _update_seen (s : RepoState) (sn : List Nat) (uuid : String)
    (fields : UpdateFields) :
    RepoState._update { s with seen := sn } uuid fields =
      { s._update uuid fields with seen := sn } := by
  unfold RepoState._update
  dsimp only
  cases dget s.by_uuid uuid with
  | none => rfl
  | some ref =>
    dsimp only
    cases dget s.heap ref with
    | none => rfl
    | some device =>
      dsimp only
      cases fields.fire_at with
      | none => rfl
      | some nfa =>
        dsimp only
        by_cases h : nfa ≠ device.fire_at <;> simp [h]

/-- `_remove` ignores and preserves the `seen` bookkeeping. -/
theorem _remove_seen (s : RepoState) (sn : List Nat) (uuid : String) :
    RepoState._remove { s with seen := sn } uuid =
      { s._remove uuid with seen := sn } := by
  unfold RepoState._remove
  dsimp only
  cases dget s.by_uuid uuid with
  | none => rfl
  | some ref =>
    dsimp only
    cases dget s.heap ref with
    | none => rfl
    | some device => rfl

/-- The public `get` returns the `by_uuid` lookup and only grows `seen`. -/
theorem get_core (s : RepoState) (uuid : String) :
    ∃ sn, s.get uuid = (dget s.by_uuid uuid, { s with seen := sn }) := by
  unfold RepoState.get RepoState._get
  cases h : dget s.by_uuid uuid with
  | none => exact ⟨s.seen, rfl⟩
  | some ref =>
    dsimp only
    obtain ⟨sn0, h0⟩ := seenAdd_eq s ref
    rw [h0]
    exact ⟨sn0, rfl⟩

/-- The public `update` is `_update` up to `seen` bookkeeping. -/
theorem update_core (s : RepoState) (uuid : String) (fields : UpdateFields) :
    ∃ sn, s.update uuid fields = { s._update uuid fields with seen := sn } := by
  unfold RepoState.update
  obtain ⟨sn0, h0⟩ := get_core s uuid
  rw [h0]
  cases h : dget s.by_uuid uuid with
  | none =>
    dsimp only
    rw [_update_absent fields h]
    exact ⟨sn0, rfl⟩
  | some ref =>
    dsimp only
    rw [_update_seen]
    obtain ⟨sn1, h1⟩ :=
      seenAdd_eq { s._update uuid fields with seen := sn0 } ref
    rw [h1]
    exact ⟨sn1, rfl⟩

/-- The public `remove` is `_remove` up to `seen` bookkeeping. -/
theorem remove_core (s : RepoState) (uuid : String) :
    ∃ sn, s.remove uuid = { s._remove uuid with seen := sn } := by
  unfold RepoState.remove
  obtain ⟨sn0, h0⟩ := get_core s uuid
  rw [h0]
  cases h : dget s.by_uuid uuid with
  | none =>
    dsimp only
    rw [_remove_absent h]
    exact ⟨sn0, rfl⟩
  | some ref =>
    dsimp only
    rw [_remove_seen]
    obtain ⟨sn1, h1⟩ := seenAdd_eq { s._remove uuid with seen := sn0 } ref
    rw [h1]
    exact ⟨sn1, rfl⟩

/-- The public range query is the private one up to `seen` bookkeeping. -/
theorem fire_core (s : RepoState) (a b : Int) :
    ∃ sn, s.get_fire_at_between a b =
      ((s._get_fire_at_between a b).1,
       { (s._get_fire_at_between a b).2 with seen := sn }) := by
  unfold RepoState.get_fire_at_between
  dsimp only
  by_cases h : (s._get_fire_at_between a b).1 = []
  · rw [if_pos h]
    exact ⟨(s._get_fire_at_between a b).2.seen, rfl⟩
  · rw [if_neg h]
    have := seenFoldRefs_sameCore (s._get_fire_at_between a b).1
      (s._get_fire_at_between a b).2
    -- rebuild the record form of the seen fold
    obtain ⟨sn1, h1⟩ : ∃ sn,
        (s._get_fire_at_between a b).1.foldl (fun acc r => acc.seenAdd r)
          (s._get_fire_at_between a b).2 =
        { (s._get_fire_at_between a b).2 with seen := sn } := by
      generalize (s._get_fire_at_between a b).2 = st
      generalize (s._get_fire_at_between a b).1 = refs
      induction refs generalizing st with
      | nil => exact ⟨st.seen, rfl⟩
      | cons r rest ih =>
        obtain ⟨sn0, h0⟩ := seenAdd_eq st r
        obtain ⟨sn1, h1⟩ := ih (st.seenAdd r)
        refine ⟨sn1, ?_⟩
        have hstep : (r :: rest).foldl (fun acc q => acc.seenAdd q) st =
            rest.foldl (fun acc q => acc.seenAdd q) (st.seenAdd r) := rfl
        rw [hstep, h1, h0]
    rw [h1]
    exact ⟨sn1, rfl⟩

/-- Wf is preserved by the public operations. -/
theorem Wf_update_pub {s : RepoState} (uuid : String) (fields : UpdateFields)
    (h : Wf s) : Wf (s.update uuid fields) := by
  obtain ⟨sn, hsn⟩ := update_core s uuid fields
  rw [hsn]
  have hc : sameCore (s._update uuid fields)
      { s._update uuid fields with seen := sn } := ⟨rfl, rfl, rfl, rfl⟩
  exact Wf_of_sameCore hc (Wf__update uuid fields h)

theorem Wf_remove_pub {s : RepoState} (uuid : String) (h : Wf s) :
    Wf (s.remove uuid) := by
  obtain ⟨sn, hsn⟩ := remove_core s uuid
  rw [hsn]
  have hc : sameCore (s._remove uuid)
      { s._remove uuid with seen := sn } := ⟨rfl, rfl, rfl, rfl⟩
  exact Wf_of_sameCore hc (Wf__remove uuid h)

theorem Wf_remove_all_pub {s : RepoState} (h : Wf s) : Wf s.remove_all := by
  obtain ⟨sn, hsn⟩ := remove_all_core h
  rw [hsn]
  refine { uuidKeysNodup := by simp [dkeys],
           fireKeysNodup := by simp [dkeys],
           heapBound := h.heapBound, uuidRef := ?_, bucketSound := ?_ }
  · intro uu ref hx
    simp [dget] at hx
  · intro t b hx
    simp [dget] at hx

theorem Wf_fire_pub {s : RepoState} (a b : Int) (h : Wf s) :
    Wf (s.get_fire_at_between a b).2 := by
  obtain ⟨sn, hsn⟩ := fire_core s a b
  rw [hsn]
  have hc : sameCore (s._get_fire_at_between a b).2
      { (s._get_fire_at_between a b).2 with seen := sn } := ⟨rfl, rfl, rfl, rfl⟩
  exact Wf_of_sameCore hc (Wf_fire_between a b h)

theorem Wf_addNew {s : RepoState} (d : Device) (h : Wf s)
    (hfresh : dget s.by_uuid d.uuid = none) :
    Wf ((s.alloc d).2.add (s.alloc d).1) := by
  obtain ⟨hlive, hext, hby, hbf, hw2⟩ := alloc_spec s d h
  obtain ⟨sn, hsn⟩ := seenAdd_eq ((s.alloc d).2._add (s.alloc d).1) (s.alloc d).1
  unfold RepoState.add
  rw [hsn]
  have hc : sameCore ((s.alloc d).2._add (s.alloc d).1)
      { (s.alloc d).2._add (s.alloc d).1 with seen := sn } := ⟨rfl, rfl, rfl, rfl⟩
  refine Wf_of_sameCore hc (Wf__add hw2 hlive ?_)
  rw [hby]
  exact hfresh

theorem Wf_empty : Wf RepoState.empty := by
  refine { uuidKeysNodup := by simp [RepoState.empty, dkeys],
           fireKeysNodup := by simp [RepoState.empty, dkeys],
           heapBound := ?_, uuidRef := ?_, bucketSound := ?_ }
  · intro r _
    rfl
  · intro u ref hx
    simp [RepoState.empty, dget] at hx
  · intro t b hx
    simp [RepoState.empty, dget] at hx

/-! ## Reachable repository states (for the index-consistency invariant) -/

/-- States reachable from the empty repository by the public operations,
adds being restricted to uuids not already present. -/
inductive Reach : RepoState → Prop
  | empty : Reach RepoState.empty
  | add (s : RepoState) (d : Device) : Reach s →
      dget s.by_uuid d.uuid = none → Reach ((s.alloc d).2.add (s.alloc d).1)
  | update (s : RepoState) (uuid : String) (fields : UpdateFields) :
      Reach s → Reach (s.update uuid fields)
  | remove (s : RepoState) (uuid : String) : Reach s → Reach (s.remove uuid)
  | remove_all (s : RepoState) : Reach s → Reach s.remove_all
  | fire_between (s : RepoState) (a b : Int) : Reach s →
      Reach (s.get_fire_at_between a b).2

/-- Every reachable state satisfies the full invariant. -/
theorem Reach.wf {s : RepoState} (h : Reach s) : Wf s := by
  induction h with
  | empty => exact Wf_empty
  | add s d _ hfresh ih => exact Wf_addNew d ih hfresh
  | update s uuid fields _ ih => exact Wf_update_pub uuid fields ih
  | remove s uuid _ ih => exact Wf_remove_pub uuid ih
  | remove_all s _ ih => exact Wf_remove_all_pub ih
  | fire_between s a b _ ih => exact Wf_fire_pub a b ih

theorem mem_collectRange {fire : List (Int × List String)}
    {bu : List (String × Nat)} {range : List Int} {ref : Nat} :
    ref ∈ collectRange fire bu range ↔
      ∃ ts ∈ range, ∃ u ∈ (dget fire ts).getD [], dget bu u = some ref := by
  induction range with
  | nil => simp [collectRange]
  | cons ts rest ih =>
    simp only [collectRange, List.mem_append, List.mem_filterMap, ih,
      List.mem_cons]
    constructor
    · rintro (⟨u, hu, hr⟩ | ⟨ts2, h2, u, hu, hr⟩)
      · exact ⟨ts, Or.inl rfl, u, hu, hr⟩
      · exact ⟨ts2, Or.inr h2, u, hu, hr⟩
    · rintro ⟨ts2, h2 | h2, u, hu, hr⟩
      · subst h2
        exact Or.inl ⟨u, hu, hr⟩
      · exact Or.inr ⟨ts2, h2, u, hu, hr⟩

theorem collectRange_empty {fire : List (Int × List String)}
    {bu : List (String × Nat)} {range : List Int}
    (h : ∀ ts ∈ range, dget fire ts = none) :
    collectRange fire bu range = [] := by
  induction range with
  | nil => rfl
  | cons ts rest ih =>
    simp only [collectRange]
    rw [h ts (List.mem_cons_self ts rest),
      ih (fun t ht => h t (List.mem_cons_of_mem _ ht))]
    rfl

/-- Soundness of the public range query: every returned device reference
points at a live device whose `fire_at` lies in the inclusive window. -/
theorem fire_sound {s : RepoState} (hw : Wf s) (a b : Int) :
    ∀ ref ∈ (s.get_fire_at_between a b).1,
      ∃ u d, dget s.by_uuid u = some ref ∧ dget s.heap ref = some d ∧
        a ≤ d.fire_at ∧ d.fire_at ≤ b := by
  intro ref hmem
  obtain ⟨sn, hsn⟩ := fire_core s a b
  rw [hsn] at hmem
  obtain ⟨f1, _, _, _, _, _, _⟩ :=
    foldFire_spec (intRange a b) (intRange_nodup a b) [] s
  have hm : ref ∈ collectRange s.by_fire_at s.by_uuid (intRange a b) := by
    have : (s._get_fire_at_between a b).1 =
        collectRange s.by_fire_at s.by_uuid (intRange a b) := by
      unfold RepoState._get_fire_at_between
      rw [f1]
      rfl
    rw [← this]
    exact hmem
  obtain ⟨ts, hts, u, hu, hru⟩ := mem_collectRange.mp hm
  cases hbk : dget s.by_fire_at ts with
  | none =>
    rw [hbk] at hu
    cases hu
  | some bb =>
    rw [hbk] at hu
    simp only [Option.getD_some] at hu
    obtain ⟨ref2, d2, h1, h2, h3⟩ := (hw.bucketSound ts bb hbk).2.2 u hu
    rw [hru] at h1
    cases h1
    rw [intRange_mem] at hts
    exact ⟨u, d2, hru, h2, by rw [h3]; exact hts.1, by rw [h3]; exact hts.2⟩

/-- Completeness of the public range query on a fully indexed store: every
stored device with `fire_at` in the window is returned. -/
theorem fire_complete {s : RepoState} (hw : Wf s) (hfull : FullIndex s)
    (a b : Int) :
    ∀ u ref d, dget s.by_uuid u = some ref → dget s.heap ref = some d →
      a ≤ d.fire_at → d.fire_at ≤ b →
      ref ∈ (s.get_fire_at_between a b).1 := by
  intro u ref d h1 h2 hge hle
  obtain ⟨sn, hsn⟩ := fire_core s a b
  rw [hsn]
  obtain ⟨f1, _, _, _, _, _, _⟩ :=
    foldFire_spec (intRange a b) (intRange_nodup a b) [] s
  have heq : (s._get_fire_at_between a b).1 =
      collectRange s.by_fire_at s.by_uuid (intRange a b) := by
    unfold RepoState._get_fire_at_between
    rw [f1]
    rfl
  show ref ∈ (s._get_fire_at_between a b).1
  rw [heq, mem_collectRange]
  obtain ⟨bk, hbk, hub⟩ := hfull u ref d h1 h2
  refine ⟨d.fire_at, ?_, u, ?_, h1⟩
  · rw [intRange_mem]
    exact ⟨hge, hle⟩
  · rw [hbk]
    simpa using hub

theorem FullIndex_empty : FullIndex RepoState.empty := by
  intro u ref d h1
  simp [RepoState.empty, dget] at h1

/-- Adding a freshly allocated device preserves index completeness. -/
theorem FullIndex_addNew {s : RepoState} (d : Device) (hw : Wf s)
    (hfull : FullIndex s) :
    FullIndex ((s.alloc d).2.add (s.alloc d).1) := by
  obtain ⟨hlive, hext, hby, hbf, hw2⟩ := alloc_spec s d hw
  have hfull2 : FullIndex (s.alloc d).2 := by
    intro uu ref d2 h1 h2
    rw [hby] at h1
    rw [hbf]
    obtain ⟨e, he, _⟩ := hw.uuidRef uu ref h1
    rw [hext ref e he] at h2
    cases h2
    exact hfull uu ref _ h1 he
  obtain ⟨sn, hsn⟩ := seenAdd_eq ((s.alloc d).2._add (s.alloc d).1) (s.alloc d).1
  unfold RepoState.add
  rw [hsn]
  have hc : sameCore ((s.alloc d).2._add (s.alloc d).1)
      { (s.alloc d).2._add (s.alloc d).1 with seen := sn } := ⟨rfl, rfl, rfl, rfl⟩
  exact FullIndex_of_sameCore hc (FullIndex__add hfull2 hlive)

/-- `__enter__` takes the backup and only touches `seen`. -/
theorem uowEnter_core (s : RepoState) :
    (uowEnter s).backup = s.by_uuid ∧
    ∃ sn, (uowEnter s).repo = { s with seen := sn } := by
  unfold uowEnter RepoState.get_all_by_uuid RepoState._get_all_by_uuid
  dsimp only
  by_cases hnil : s.by_uuid = []
  · rw [if_pos hnil]
    exact ⟨rfl, s.seen, rfl⟩
  · rw [if_neg hnil]
    obtain ⟨sn, hsn⟩ := seenFoldPairs_eq s.by_uuid s
    rw [hsn]
    exact ⟨rfl, sn, rfl⟩

/-! ## Arbitrary in-scope operation sequences (for the rollback contract) -/

/-- The repository operations a handler body may perform inside a scope. -/
inductive RepoOp
  | add (d : Device)
  | update (uuid : String) (fields : UpdateFields)
  | remove (uuid : String)
  | removeAll
  | fireBetween (a b : Int)

def applyOp (s : RepoState) : RepoOp → RepoState
  | .add d => (s.alloc d).2.add (s.alloc d).1
  | .update uuid fields => s.update uuid fields
  | .remove uuid => s.remove uuid
  | .removeAll => s.remove_all
  | .fireBetween a b => (s.get_fire_at_between a b).2

def applyOps (s : RepoState) (ops : List RepoOp) : RepoState :=
  ops.foldl applyOp s

/-- The heap of `s'` still holds, for every reference live in `s`, an
object with the same uuid (objects are only mutated in place, never freed,
and nothing rewrites a uuid). -/
def heapUuidExtends (s s' : RepoState) : Prop :=
  ∀ ref d, dget s.heap ref = some d →
    ∃ d', dget s'.heap ref = some d' ∧ d'.uuid = d.uuid

theorem heapUuidExtends_refl (s : RepoState) : heapUuidExtends s s :=
  fun ref d hd => ⟨d, hd, rfl⟩

theorem heapUuidExtends_trans {s1 s2 s3 : RepoState}
    (h1 : heapUuidExtends s1 s2) (h2 : heapUuidExtends s2 s3) :
    heapUuidExtends s1 s3 := by
  intro ref d hd
  obtain ⟨d2, hd2, he2⟩ := h1 ref d hd
  obtain ⟨d3, hd3, he3⟩ := h2 ref d2 hd2
  exact ⟨d3, hd3, he3.trans he2⟩

theorem heapUuidExtends_of_heap_eq {s s' : RepoState} (h : s'.heap = s.heap) :
    heapUuidExtends s s' := by
  intro ref d hd
  rw [h]
  exact ⟨d, hd, rfl⟩

theorem _update_dangling {s : RepoState} {uuid : String} {ref : Nat}
    (fields : UpdateFields) (h1 : dget s.by_uuid uuid = some ref)
    (h2 : dget s.heap ref = none) : s._update uuid fields = s := by
  unfold RepoState._update
  simp only [h1, h2]

theorem _remove_heap (s : RepoState) (uuid : String) :
    (s._remove uuid).heap = s.heap := by
  unfold RepoState._remove
  cases dget s.by_uuid uuid with
  | none => rfl
  | some ref =>
    dsimp only
    cases dget s.heap ref <;> rfl

/-- `_add` never touches the heap. -/
theorem _add_heap (s : RepoState) (ref : Nat) : (s._add ref).heap = s.heap := by
  unfold RepoState._add
  cases dget s.heap ref <;> rfl

theorem heapUuidExtends__update (s : RepoState) (uuid : String)
    (fields : UpdateFields) : heapUuidExtends s (s._update uuid fields) := by
  cases href : dget s.by_uuid uuid with
  | none =>
    rw [_update_absent fields href]
    exact heapUuidExtends_refl s
  | some ref =>
    cases hdev : dget s.heap ref with
    | none =>
      rw [_update_dangling fields href hdev]
      exact heapUuidExtends_refl s
    | some device =>
      have hheap : (s._update uuid fields).heap =
          dset s.heap ref (updDevice device fields) := by
        by_cases hreidx : ∃ nfa, fields.fire_at = some nfa ∧ nfa ≠ device.fire_at
        · obtain ⟨nfa, hfa, hch⟩ := hreidx
          rw [_update_reindex href hdev hfa hch]
        · push_neg at hreidx
          have h3 : fields.fire_at = none ∨
              fields.fire_at = some device.fire_at := by
            cases hfa : fields.fire_at with
            | none => exact Or.inl rfl
            | some nfa =>
              right
              rw [hreidx nfa hfa]
          rw [_update_no_reindex href hdev h3]
      intro r e he
      rw [hheap, dget_dset]
      by_cases hr : ref = r
      · subst hr
        rw [hdev] at he
        cases he
        exact ⟨updDevice device fields, by simp, rfl⟩
      · exact ⟨e, by simp [hr, he], rfl⟩

theorem remove_all_parts (s : RepoState) :
    s.remove_all.heap = s.heap ∧ s.remove_all.nextRef = s.nextRef ∧
    s.remove_all.by_uuid = [] := by
  by_cases hnil : s.by_uuid = []
  · have h1 : s.get_all_by_uuid = (s.by_uuid, s) := by
      unfold RepoState.get_all_by_uuid RepoState._get_all_by_uuid
      dsimp only
      rw [if_pos hnil]
    have h2 : s.remove_all = s := by
      unfold RepoState.remove_all
      rw [h1]
      dsimp only
      rw [if_pos hnil]
    rw [h2]
    exact ⟨rfl, rfl, hnil⟩
  · obtain ⟨sn1, hsn1⟩ := seenFoldPairs_eq s.by_uuid s
    have h1 : s.get_all_by_uuid = (s.by_uuid, { s with seen := sn1 }) := by
      unfold RepoState.get_all_by_uuid RepoState._get_all_by_uuid
      dsimp only
      rw [if_neg hnil, hsn1]
    obtain ⟨sn2, hsn2⟩ := seenFoldPairs_eq s.by_uuid
      (RepoState._remove_all { s with seen := sn1 })
    have h2 : s.remove_all =
        { RepoState._remove_all { s with seen := sn1 } with seen := sn2 } := by
      unfold RepoState.remove_all
      rw [h1]
      dsimp only
      rw [if_neg hnil, hsn2]
    rw [h2]
    exact ⟨rfl, rfl, rfl⟩

theorem fire_heap (s : RepoState) (a b : Int) :
    (s.get_fire_at_between a b).2.heap = s.heap ∧
    (s.get_fire_at_between a b).2.by_uuid = s.by_uuid ∧
    (s.get_fire_at_between a b).2.nextRef = s.nextRef := by
  obtain ⟨sn, hsn⟩ := fire_core s a b
  obtain ⟨_, f2, f3, f4, _, _, _⟩ :=
    foldFire_spec (intRange a b) (intRange_nodup a b) [] s
  rw [hsn]
  exact ⟨f2, ⟨f4, f3⟩⟩

theorem heapUuidExtends_applyOp (s : RepoState) (op : RepoOp) :
    heapUuidExtends s (applyOp s op) := by
  cases op with
  | add d =>
    show heapUuidExtends s ((s.alloc d).2.add (s.alloc d).1)
    obtain ⟨sn, hsn⟩ := seenAdd_eq ((s.alloc d).2._add (s.alloc d).1) (s.alloc d).1
    intro ref e he
    refine ⟨e, ?_, rfl⟩
    unfold RepoState.add
    rw [hsn]
    show dget ((s.alloc d).2._add (s.alloc d).1).heap ref = some e
    rw [_add_heap]
    show dget (s.heap ++ [(s.nextRef, d)]) ref = some e
    rw [dget_append, he]
  | update uuid fields =>
    show heapUuidExtends s (s.update uuid fields)
    obtain ⟨sn, hsn⟩ := update_core s uuid fields
    rw [hsn]
    intro ref e he
    obtain ⟨e', he', heq⟩ := heapUuidExtends__update s uuid fields ref e he
    exact ⟨e', he', heq⟩
  | remove uuid =>
    show heapUuidExtends s (s.remove uuid)
    obtain ⟨sn, hsn⟩ := remove_core s uuid
    rw [hsn]
    refine heapUuidExtends_of_heap_eq ?_
    show (s._remove uuid).heap = s.heap
    exact _remove_heap s uuid
  | removeAll =>
    exact heapUuidExtends_of_heap_eq (remove_all_parts s).1
  | fireBetween a b =>
    exact heapUuidExtends_of_heap_eq (fire_heap s a b).1

theorem heapUuidExtends_applyOps (s : RepoState) (ops : List RepoOp) :
    heapUuidExtends s (applyOps s ops) := by
  induction ops generalizing s with
  | nil => exact heapUuidExtends_refl s
  | cons op rest ih =>
    exact heapUuidExtends_trans (heapUuidExtends_applyOp s op) (ih (applyOp s op))

/-- The uuid-index effect of the rollback re-population, needing no
invariant on the state being repopulated. -/
theorem foldAdd_byuuid (pairs : List (String × Nat)) (s : RepoState)
    (hnd : (pairs.map Prod.fst).Nodup)
    (hvals : ∀ p ∈ pairs, ∃ d, dget s.heap p.2 = some d ∧ d.uuid = p.1)
    (hfresh : ∀ p ∈ pairs, dget s.by_uuid p.1 = none) :
    (pairs.foldl (fun acc p => acc.add p.2) s).by_uuid = s.by_uuid ++ pairs ∧
    (pairs.foldl (fun acc p => acc.add p.2) s).heap = s.heap := by
  induction pairs generalizing s with
  | nil => exact ⟨by simp, rfl⟩
  | cons p rest ih =>
    obtain ⟨pu, pref⟩ := p
    obtain ⟨d, hd, hdu⟩ := hvals (pu, pref) (List.mem_cons_self _ _)
    have hfr : dget s.by_uuid d.uuid = none := by
      rw [hdu]
      exact hfresh (pu, pref) (List.mem_cons_self _ _)
    obtain ⟨sn, hsn⟩ := seenAdd_eq (s._add pref) pref
    have hstep : s.add pref = { s._add pref with seen := sn } := by
      unfold RepoState.add
      rw [hsn]
    have hby : (s.add pref).by_uuid = s.by_uuid ++ [(pu, pref)] := by
      rw [hstep]
      show (s._add pref).by_uuid = s.by_uuid ++ [(pu, pref)]
      rw [_add_eq hd]
      show dset s.by_uuid d.uuid pref = s.by_uuid ++ [(pu, pref)]
      rw [hdu] at hfr ⊢
      exact dset_append_of_absent pref hfr
    have hheap : (s.add pref).heap = s.heap := by
      rw [hstep]
      exact _add_heap s pref
    have hnd' : (rest.map Prod.fst).Nodup := (List.nodup_cons.mp hnd).2
    have hvals' : ∀ q ∈ rest, ∃ e, dget (s.add pref).heap q.2 = some e ∧
        e.uuid = q.1 := by
      intro q hq
      rw [hheap]
      exact hvals q (List.mem_cons_of_mem _ hq)
    have hfresh' : ∀ q ∈ rest, dget (s.add pref).by_uuid q.1 = none := by
      intro q hq
      rw [hby, dget_append, hfresh q (List.mem_cons_of_mem _ hq)]
      have : ¬ pu = q.1 := by
        intro he
        have : q.1 ∈ rest.map Prod.fst := List.mem_map_of_mem Prod.fst hq
        rw [← he] at this
        exact (List.nodup_cons.mp hnd).1 this
      simp [dget, this]
    obtain ⟨ih1, ih2⟩ := ih (s.add pref) hnd' hvals' hfresh'
    have hfold : ((pu, pref) :: rest).foldl (fun acc q => acc.add q.2) s =
        rest.foldl (fun acc q => acc.add q.2) (s.add pref) := rfl
    rw [hfold]
    refine ⟨?_, by rw [ih2, hheap]⟩
    rw [ih1, hby]
    simp

/-- The rollback restores the uuid index to the backup exactly; invariants
on the mid-scope state are not needed (only that the backed-up references
are still live with their uuids). -/
theorem rollback_byuuid (s0 : RepoState) (u : UowState)
    (hb : u.backup = s0.by_uuid)
    (hn : (dkeys s0.by_uuid).Nodup)
    (hu : ∀ uu ref, dget s0.by_uuid uu = some ref →
      ∃ d, dget u.repo.heap ref = some d ∧ d.uuid = uu) :
    u.rollback.repo.by_uuid = s0.by_uuid ∧
    u.rollback.repo.heap = u.repo.heap := by
  obtain ⟨hr1, hr2, hr3⟩ := remove_all_parts u.repo
  have hvals : ∀ p ∈ u.backup,
      ∃ d, dget u.repo.remove_all.heap p.2 = some d ∧ d.uuid = p.1 := by
    intro p hp
    rw [hb] at hp
    rw [hr1]
    exact hu p.1 p.2 (dget_eq_of_mem_nodup hn hp)
  have hfresh : ∀ p ∈ u.backup, dget u.repo.remove_all.by_uuid p.1 = none := by
    intro p _
    rw [hr3]
    rfl
  have hnd : (u.backup.map Prod.fst).Nodup := by
    rw [hb]
    exact hn
  obtain ⟨f1, f2⟩ := foldAdd_byuuid u.backup u.repo.remove_all hnd hvals hfresh
  have hroll : u.rollback.repo = u.backup.foldl (fun acc p => acc.add p.2)
      u.repo.remove_all := rfl
  rw [hroll]
  refine ⟨?_, by rw [f2, hr1]⟩
  rw [f1, hr3, hb]
  rfl

/-! ## Equations of the message-bus loop -/

theorem handleLoop_nil {σ : Type} (bus : MessageBus σ) (fuel : Nat) (s : σ) :
    handleLoop bus fuel s [] = some (s, none) := by
  cases fuel <;> rfl

theorem handleLoop_zero {σ : Type} (bus : MessageBus σ) (s : σ) (m : Msg)
    (rest : List Msg) : handleLoop bus 0 s (m :: rest) = none := rfl

theorem handleLoop_ev {σ : Type} (bus : MessageBus σ) (fuel : Nat) (s : σ)
    (e : Ev) (rest : List Msg) :
    handleLoop bus (fuel + 1) s (Msg.ev e :: rest) =
      match dget bus.event_handlers e.type with
      | none => some (s, some (BusErr.eventKeyError e.type))
      | some hs =>
        handleLoop bus fuel (runEventHandlers bus e hs s rest).1
          (runEventHandlers bus e hs s rest).2 := rfl

theorem handleLoop_cmd {σ : Type} (bus : MessageBus σ) (fuel : Nat) (s : σ)
    (c : Cmd) (rest : List Msg) :
    handleLoop bus (fuel + 1) s (Msg.cmd c :: rest) =
      match dget bus.command_handlers c.type with
      | none => some (s, some (BusErr.commandKeyError c.type))
      | some h =>
        match (h c s).2 with
        | some err => some ((h c s).1, some (BusErr.commandError c.type err))
        | none =>
          handleLoop bus fuel (bus.collect (h c s).1).1
            (rest ++ (bus.collect (h c s).1).2) := rfl

/-! ## Concrete fixtures used by the closed evaluations -/

/-- A concrete device: registered at 100 with a 5-second TTL. -/
def dev1 : Device :=
  { uuid := "a", name := "n", last_will := "w", ttl := 5, created_at := 100,
    fire_at := 105, consumer_id := none, consumed := false, events := [],
    version_number := 0 }

/-- A second device, firing one second later. -/
def dev2 : Device :=
  { uuid := "b", name := "m", last_will := "v", ttl := 6, created_at := 100,
    fire_at := 106, consumer_id := none, consumed := false, events := [],
    version_number := 0 }

/-- Build a store by allocating and adding the given devices in order. -/
def mkStore (ds : List Device) : RepoState :=
  ds.foldl (fun s d => (s.alloc d).2.add (s.alloc d).1) RepoState.empty

def store1 : RepoState := mkStore [dev1]

def store2 : RepoState := mkStore [dev1, dev2]

theorem store1_reach : Reach store1 := by
  have h := Reach.add RepoState.empty dev1 Reach.empty rfl
  exact h

theorem store2_reach : Reach store2 := by
  have h1 := Reach.add RepoState.empty dev1 Reach.empty rfl
  have h2 := Reach.add _ dev2 h1 (by decide)
  exact h2

theorem store1_wf : Wf store1 := store1_reach.wf

theorem store2_wf : Wf store2 := store2_reach.wf

theorem store1_full : FullIndex store1 :=
  FullIndex_addNew dev1 Wf_empty FullIndex_empty

theorem store2_full : FullIndex store2 := by
  have h1 : FullIndex (mkStore [dev1]) :=
    FullIndex_addNew dev1 Wf_empty FullIndex_empty
  have h1w : Wf (mkStore [dev1]) := store1_reach.wf
  exact FullIndex_addNew dev2 h1w h1

/-! ## The committed-scope template (claim about the Unit of Work

contract): enter the scope, mutate, `commit()`, exit normally. -/

/-- A handler scope that adds a freshly constructed device and commits,
then exits normally — the register template minus event emission. -/
def scopedAddCommit (d : Device) (repo : RepoState) :
    RepoState × Option PyErr :=
  withUow repo (fun u =>
    let a := u.repo.alloc d
    (({ u with repo := a.2.add a.1 }).commit, none))

/-- A handler scope that removes a device and commits, then exits
normally — the remove template minus event emission. -/
def scopedRemoveCommit (uuid : String) (repo : RepoState) :
    RepoState × Option PyErr :=
  withUow repo (fun u =>
    (({ u with repo := u.repo.remove uuid }).commit, none))

/-! ## Claim C1 -/

/-- C1: the claim says that after a unit-of-work scope exits normally
having called `commit()`, the mutations persist (no rollback on a committed
scope).  The code contradicts it: `AbstractUnitOfWork.__exit__` calls
`rollback()` unconditionally and the in-memory `rollback` restores the
entry snapshot, so a device added (and committed) inside the scope is gone
after the scope closes, and a removed (and committed) device is back.
Evaluated here on the empty store (add) and on a one-device store
(remove): the scope exits without error, yet the committed add leaves the
store empty, and the committed remove leaves the device present. -/
theorem C1_commit_rollback_bug :
    (scopedAddCommit dev1 RepoState.empty).2 = none ∧
    (scopedAddCommit dev1 RepoState.empty).1.by_uuid = [] ∧
    (scopedRemoveCommit "a" store1).2 = none ∧
    (scopedRemoveCommit "a" store1).1.by_uuid = [("a", 0)] ∧
    store1.by_uuid = [("a", 0)] := by
  refine ⟨rfl, by decide, rfl, by decide, by decide⟩

/-! ## Claim C2 -/

/-- C2: the claim says `register_device` builds a device with integer
`created_at` (UTC seconds), `fire_at = created_at + ttl`, queues one
registered event, and completes without raising.  The code passes
`get_utc_tz_aware_datetime(datetime.now())` — a `datetime` object, not an
`int` — as `created_at`, and `Device.__init__` computes
`self.fire_at = created_at + self.ttl`, which raises `TypeError` for a
`datetime`.  Hence the handler raises on every input and registers
nothing. -/
theorem C2_register_typeerror_bug (uuid name last_will : String) (ttl : Int)
    (now : Int) (repo : RepoState) :
    (register_device (Cmd.registerDevice uuid name last_will ttl) now repo).2 =
      some "TypeError: unsupported operand type for +: datetime and int" := rfl

/-! ## Claim C7 -/

/-- C7: the claim says each of the three commands — register, remove,
keep-alive — has exactly one handler in `COMMAND_HANDLERS`, so dispatching
`RemoveDeviceCommand` invokes the remove handler.  In `bootstrap.py` the
dict maps `ConsumerCommand` (not `RemoveDeviceCommand`) to
`remove_device`: the lookup for `RemoveDeviceCommand` has no entry, and
dispatching it raises the lookup `KeyError` (logged and re-raised by
`_handle_command`) instead of invoking the handler. -/
theorem C7_remove_handler_missing_bug :
    dget COMMAND_HANDLERS CmdType.removeDevice = none ∧
    dget COMMAND_HANDLERS CmdType.consumer = some CmdHandlerName.remove_device ∧
    dget COMMAND_HANDLERS CmdType.registerDevice =
      some CmdHandlerName.register_device ∧
    dget COMMAND_HANDLERS CmdType.keepAliveDevice =
      some CmdHandlerName.keep_alive_device ∧
    (appBus 0).handle 1 RepoState.empty (Msg.cmd (Cmd.removeDevice "x")) =
      some (RepoState.empty, some (BusErr.commandKeyError CmdType.removeDevice)) := by
  refine ⟨rfl, rfl, rfl, rfl, rfl⟩

/-! ## Claim C9 -/

/-- A bus over a counter state with no event handlers registered and one
consumer-command handler that increments the counter. -/
def c9Bus : MessageBus Nat :=
  { event_handlers := [],
    command_handlers := [(CmdType.consumer, fun _ s => (s + 1, none))],
    collect := fun s => (s, []) }

/-- C9: the claim says an event whose type has no entry in the
event-handler map is skipped as a safe no-op and dispatch continues with
the rest of its queue.  In the code `_handle_event` subscripts
`self.event_handlers[type(event)]` directly, so the missing key raises
`KeyError` outside any try, aborting `handle`: here the state stays `0`
and the queued consumer command (whose handler would set it to `1`) is
never handled. -/
theorem C9_missing_event_counterexample :
    handleLoop c9Bus 2 0
        [Msg.ev (Ev.removeDevice "x"), Msg.cmd (Cmd.consumer "c" "i")] =
      some (0, some (BusErr.eventKeyError EvType.removeDevice)) ∧
    handleLoop c9Bus 1 0 [Msg.cmd (Cmd.consumer "c" "i")] = some (1, none) := by
  exact ⟨rfl, rfl⟩

/-- C9 (amended): dispatching an event whose concrete type has no entry in
the event-handler mapping raises the lookup `KeyError` out of `handle`:
no handler is invoked, the state is unchanged, and the rest of the queue
is abandoned — not a safe no-op. -/
theorem C9_missing_event_amended {σ : Type} (bus : MessageBus σ) (fuel : Nat)
    (s : σ) (e : Ev) (rest : List Msg)
    (h : dget bus.event_handlers e.type = none) :
    handleLoop bus (fuel + 1) s (Msg.ev e :: rest) =
      some (s, some (BusErr.eventKeyError e.type)) := by
  rw [handleLoop_ev, h]

/-- C9 amended, instantiated: an event bus with an empty handler map
raises `KeyError` on a keep-alive event, regardless of the waiting queue. -/
theorem C9_missing_event_amended_witness :
    handleLoop c9Bus 4 0
        [Msg.ev (Ev.keepAliveDevice "k" 7), Msg.cmd (Cmd.consumer "c" "i")] =
      some (0, some (BusErr.eventKeyError EvType.keepAliveDevice)) :=
  C9_missing_event_amended c9Bus 3 0 (Ev.keepAliveDevice "k" 7)
    [Msg.cmd (Cmd.consumer "c" "i")] rfl

/-! ## Claim C8 -/

/-- A bus with neither event nor command handlers registered. -/
def c8Bus : MessageBus Nat :=
  { event_handlers := [], command_handlers := [],
    collect := fun s => (s, []) }

/-- C8: the claim says dispatch raises if and only if handling a command
fails.  Dispatching an event whose type is missing from the event-handler
map raises the lookup `KeyError` although no command was handled at all,
refuting the "only if" direction. -/
theorem C8_dispatch_counterexample :
    handleLoop c8Bus 1 0 [Msg.ev (Ev.removeDevice "x")] =
      some (0, some (BusErr.eventKeyError EvType.removeDevice)) ∧
    (BusErr.eventKeyError EvType.removeDevice).isCmdFailure = false := ⟨rfl, rfl⟩

/-- Totality of the event-handler map (what `bootstrap.py` establishes for
the deployed bus: every event class has an entry). -/
def eventTotal {σ : Type} (bus : MessageBus σ) : Prop :=
  ∀ t : EvType, (dget bus.event_handlers t).isSome

/-- The event-handler list that appends its index to the state and fails
on the indices selected by `fails`. -/
def traceHandlers (n : Nat) (fails : Nat → Bool) :
    List (Ev → List Nat → List Nat × Option PyErr) :=
  (List.range n).map
    (fun i => fun _ s => (s ++ [i], if fails i then some "boom" else none))

/-- A bus whose every event type runs the `n` tracing handlers. -/
def traceBus (n : Nat) (fails : Nat → Bool) : MessageBus (List Nat) :=
  { event_handlers :=
      [(EvType.registerDevice, traceHandlers n fails),
       (EvType.removeDevice, traceHandlers n fails),
       (EvType.keepAliveDevice, traceHandlers n fails)],
    command_handlers := [],
    collect := fun s => (s, []) }

theorem traceBus_lookup (n : Nat) (fails : Nat → Bool) (t : EvType) :
    dget (traceBus n fails).event_handlers t = some (traceHandlers n fails) := by
  cases t <;> rfl

theorem runEventHandlers_trace (n : Nat) (fails : Nat → Bool) (e : Ev)
    (s : List Nat) (q : List Msg) :
    runEventHandlers (traceBus n fails) e (traceHandlers n fails) s q =
      (s ++ List.range n, q) := by
  suffices h : ∀ l : List Nat, ∀ s q, runEventHandlers (traceBus n fails) e
      (l.map (fun i => fun _ s => (s ++ [i], if fails i then some "boom" else none)))
      s q = (s ++ l, q) by
    exact h (List.range n) s q
  intro l
  induction l with
  | nil =>
    intro s q
    simp [runEventHandlers]
  | cons i rest ih =>
    intro s q
    have hstep : runEventHandlers (traceBus n fails) e
        (((i :: rest).map (fun i => fun _ s =>
          (s ++ [i], if fails i then some "boom" else none)))) s q =
        runEventHandlers (traceBus n fails) e
          (rest.map (fun i => fun _ s =>
            (s ++ [i], if fails i then some "boom" else none)))
          (s ++ [i]) (if fails i then q else q ++ []) := by
      unfold runEventHandlers
      by_cases hfi : fails i <;> simp [hfi, MessageBus.collect, traceBus]
    rw [hstep]
    by_cases hfi : fails i
    · rw [if_pos hfi, ih (s ++ [i]) q]
      simp
    · rw [if_neg hfi, List.append_nil, ih (s ++ [i]) q]
      simp

/-- C8 (amended): dispatch raises exactly on command-handling failures or
on an event type missing from the event-handler mapping.  In detail:
(1) when every event type is mapped, any exception escaping `handle` is a
command failure — an exception raised by an event handler never
propagates; (2) a command-handler exception propagates to the caller with
the state the handler reached; (3) all sibling handlers of an event run in
order even when earlier ones raise, and dispatch completes without
raising. -/
theorem C8_dispatch_amended :
    (∀ (σ : Type) (bus : MessageBus σ), eventTotal bus →
      ∀ (fuel : Nat) (s s' : σ) (q : List Msg) (e : BusErr),
        handleLoop bus fuel s q = some (s', some e) → e.isCmdFailure = true) ∧
    (∀ (σ : Type) (bus : MessageBus σ) (fuel : Nat) (s : σ) (c : Cmd)
      (rest : List Msg) (h : Cmd → σ → σ × Option PyErr) (e : PyErr),
        dget bus.command_handlers c.type = some h → (h c s).2 = some e →
        handleLoop bus (fuel + 1) s (Msg.cmd c :: rest) =
          some ((h c s).1, some (BusErr.commandError c.type e))) ∧
    (∀ (n : Nat) (fails : Nat → Bool) (fuel : Nat) (e : Ev),
        handleLoop (traceBus n fails) (fuel + 1) [] [Msg.ev e] =
          some (List.range n, none)) := by
  refine ⟨?_, ?_, ?_⟩
  · intro σ bus htot fuel
    induction fuel with
    | zero =>
      intro s s' q e hrun
      cases q with
      | nil =>
        rw [handleLoop_nil] at hrun
        cases hrun
      | cons m rest =>
        rw [handleLoop_zero] at hrun
        cases hrun
    | succ fuel ih =>
      intro s s' q e hrun
      cases q with
      | nil =>
        rw [handleLoop_nil] at hrun
        cases hrun
      | cons m rest =>
        cases m with
        | ev e2 =>
          rw [handleLoop_ev] at hrun
          cases hlk : dget bus.event_handlers e2.type with
          | none =>
            have := htot e2.type
            rw [hlk] at this
            cases this
          | some hs =>
            rw [hlk] at hrun
            exact ih _ _ _ _ hrun
        | cmd c =>
          rw [handleLoop_cmd] at hrun
          cases hlk : dget bus.command_handlers c.type with
          | none =>
            rw [hlk] at hrun
            cases hrun
            rfl
          | some h =>
            simp only [hlk] at hrun
            cases herr : (h c s).2 with
            | some err =>
              simp only [herr] at hrun
              cases hrun
              rfl
            | none =>
              simp only [herr] at hrun
              exact ih _ _ _ _ hrun
  · intro σ bus fuel s c rest h e hlk herr
    rw [handleLoop_cmd, hlk]
    simp only [herr]
  · intro n fails fuel e
    rw [handleLoop_ev, traceBus_lookup]
    simp only [runEventHandlers_trace]
    rw [handleLoop_nil]
    rfl

/-- C8 amended, instantiated: a failing keep-alive command raised through a
bus with a total event map is classified as a command failure. -/
theorem C8_dispatch_amended_witness :
    BusErr.isCmdFailure
      (BusErr.commandError CmdType.keepAliveDevice "NotFoundError") = true := by
  have hw := C8_dispatch_amended.1 Nat
    { event_handlers := [(EvType.registerDevice, []), (EvType.removeDevice, []),
        (EvType.keepAliveDevice, [])],
      command_handlers :=
        [(CmdType.keepAliveDevice, fun _ s => (s, some "NotFoundError"))],
      collect := fun s => (s, []) }
    (fun t => by cases t <;> rfl) 1 0 0
    [Msg.cmd (Cmd.keepAliveDevice "k")]
    (BusErr.commandError CmdType.keepAliveDevice "NotFoundError") rfl
  exact hw

/-! ## Claim C5 -/

/-- A scope over `store1` that updates the device's `fire_at` in place and
then raises. -/
def c5run : RepoState × Option PyErr :=
  withUow store1 (fun u =>
    ({ u with repo := u.repo.update "a" { fire_at := some 999, name := none } },
     some "boom"))

/-- C5: the claim says rollback restores the store to exactly the entry
snapshot — the same devices with the same field values.  The backup is a
shallow dict copy sharing the device objects, so an in-place field update
made during the failed scope survives the rollback: after the exception
the device is still present (the uuid index is restored), but its
`fire_at` is the mutated `999`, not the `105` it had at entry. -/
theorem C5_rollback_counterexample :
    c5run.2 = some "boom" ∧
    c5run.1.by_uuid = store1.by_uuid ∧
    (dget store1.heap 0).map Device.fire_at = some 105 ∧
    (dget c5run.1.heap 0).map Device.fire_at = some 999 := by
  refine ⟨rfl, by decide, by decide, by decide⟩

/-- C5 (amended): when an exception escapes a unit-of-work scope, the
rollback restores the entry dictionary of devices exactly — every add and
remove performed during the scope is discarded and the entry objects are
re-indexed — but field values mutated in place during the scope persist,
because the snapshot shares the device objects (see the counterexample).
The exception still propagates. -/
theorem C5_rollback_amended (s0 : RepoState) (ops : List RepoOp) (e : PyErr)
    (hw : Wf s0) :
    (withUow s0 (fun u => ({ u with repo := applyOps u.repo ops }, some e))).2 =
      some e ∧
    (withUow s0 (fun u =>
        ({ u with repo := applyOps u.repo ops }, some e))).1.by_uuid =
      s0.by_uuid := by
  refine ⟨rfl, ?_⟩
  have hbk := (uowEnter_core s0).1
  obtain ⟨sn0, hrepo⟩ := (uowEnter_core s0).2
  set u : UowState := uowEnter s0 with hu
  set u' : UowState := { u with repo := applyOps u.repo ops } with hu'
  have hres : (withUow s0 (fun v =>
      ({ v with repo := applyOps v.repo ops }, some e))).1 =
      u'.rollback.repo := rfl
  rw [hres]
  have hb' : u'.backup = s0.by_uuid := hbk
  have hhu : ∀ uu ref, dget s0.by_uuid uu = some ref →
      ∃ d, dget u'.repo.heap ref = some d ∧ d.uuid = uu := by
    intro uu ref h
    obtain ⟨d, hd, hdu⟩ := hw.uuidRef uu ref h
    have hd0 : dget u.repo.heap ref = some d := by
      rw [hrepo]
      exact hd
    obtain ⟨d', hd', hdu'⟩ := heapUuidExtends_applyOps u.repo ops ref d hd0
    exact ⟨d', hd', hdu'.trans hdu⟩
  exact (rollback_byuuid s0 u' hb' hw.uuidKeysNodup hhu).1

/-- The same failing scope expressed through the operation language. -/
def c5runOps : RepoState × Option PyErr :=
  withUow store1 (fun u =>
    ({ u with repo := applyOps u.repo [RepoOp.update "a" { fire_at := some 999, name := none }] },
     some "boom"))

/-- C5 amended, instantiated: the failed fire_at-update scope over `store1`
propagates its exception and leaves the uuid index exactly as at entry. -/
theorem C5_rollback_amended_witness :
    c5runOps.2 = some "boom" ∧ c5runOps.1.by_uuid = store1.by_uuid :=
  C5_rollback_amended store1
    [RepoOp.update "a" { fire_at := some 999, name := none }] "boom" store1_wf

/-! ## Claim C4 -/

/-- C4: the claim asserts a strict increase of `fire_at` and that a query
at the old `fire_at` no longer returns the device.  Renewing in the same
second as the previous computation (`now = created_at = 100`, `ttl = 5`)
recomputes `fire_at = now + ttl = 105`, equal to — not strictly greater
than — the old value, and the query covering the old `fire_at` timestamp
still returns the device. -/
theorem C4_keepalive_counterexample :
    (dget store1.heap 0).map Device.fire_at = some 105 ∧
    (keep_alive_device (Cmd.keepAliveDevice "a") 100 store1).2 = none ∧
    (dget (keep_alive_device (Cmd.keepAliveDevice "a") 100 store1).1.heap 0).map
      Device.fire_at = some 105 ∧
    0 ∈ ((keep_alive_device (Cmd.keepAliveDevice "a") 100 store1).1.get_fire_at_between
      105 105).1 := by
  refine ⟨by decide, rfl, by decide, by decide⟩

/-- C4 (amended): for a stored device, `keep_alive` completes without
raising and sets its `fire_at` to `now + ttl`, computed from the renewal
instant (not from the previous `fire_at`); this strictly increases
`fire_at` exactly when `now + ttl` exceeds the old value; the store keeps
the same uuid dictionary; and after the handler a range query over any
window not containing the new `fire_at` — in particular one covering only
the old `fire_at` when the value changed — does not return the device. -/
theorem C4_keepalive_amended (s0 : RepoState) (uuid : String) (ref : Nat)
    (d : Device) (now : Int) (hw : Wf s0)
    (h1 : dget s0.by_uuid uuid = some ref) (h2 : dget s0.heap ref = some d) :
    (keep_alive_device (Cmd.keepAliveDevice uuid) now s0).2 = none ∧
    (keep_alive_device (Cmd.keepAliveDevice uuid) now s0).1.by_uuid =
      s0.by_uuid ∧
    (∃ d', dget (keep_alive_device (Cmd.keepAliveDevice uuid) now s0).1.heap
        ref = some d' ∧ d'.uuid = d.uuid ∧ d'.fire_at = now + d.ttl ∧
        (now + d.ttl > d.fire_at → d'.fire_at > d.fire_at)) ∧
    (∀ a b, ¬ (a ≤ now + d.ttl ∧ now + d.ttl ≤ b) →
      ref ∉ ((keep_alive_device (Cmd.keepAliveDevice uuid) now s0).1.get_fire_at_between
        a b).1) := by
  -- name the pieces of the run
  have hbk := (uowEnter_core s0).1
  obtain ⟨sn0, hrepo⟩ := (uowEnter_core s0).2
  set u : UowState := uowEnter s0 with hu
  obtain ⟨sn1, hget⟩ := get_core u.repo uuid
  have hby : dget u.repo.by_uuid uuid = some ref := by
    rw [hrepo]
    exact h1
  have hfst : (u.repo.get uuid).1 = some ref := by
    rw [hget]
    exact hby
  have hsndheap : dget (u.repo.get uuid).2.heap ref = some d := by
    rw [hget]
    show dget u.repo.heap ref = some d
    rw [hrepo]
    exact h2
  set fields : UpdateFields := { fire_at := some (now + d.ttl), name := none }
    with hfields
  set g : Device → Device := Device.generate_event_keep_alive_device with hg
  set s2 : RepoState :=
    ((u.repo.get uuid).2.update uuid fields).heapModify ref g with hs2def
  have hrun : keep_alive_device (Cmd.keepAliveDevice uuid) now s0 =
      (({ u with repo := s2 } : UowState).rollback.repo, none) := by
    show withUow s0 _ = _
    unfold withUow
    rw [← hu]
    dsimp only [Cmd.uuid]
    rw [hfst]
    dsimp only
    rw [hsndheap]
    dsimp only [get_utc_tz_aware_datetime, PyTimeVal.timestampInt]
    rfl
  -- characterize the mid-scope state s2
  have hr2eq : (u.repo.get uuid).2 = ({ s0 with seen := sn1 } : RepoState) := by
    rw [hget, hrepo]
  obtain ⟨sn2, hupd⟩ := update_core ({ s0 with seen := sn1 }) uuid fields
  have hupd' : (u.repo.get uuid).2.update uuid fields =
      { s0._update uuid fields with seen := sn2 } := by
    rw [hr2eq, hupd, _update_seen s0 sn1 uuid fields]
  set D' : Device := updDevice d fields with hD'
  have hUheap : (s0._update uuid fields).heap = dset s0.heap ref D' := by
    by_cases hreidx : ∃ nfa, fields.fire_at = some nfa ∧ nfa ≠ d.fire_at
    · obtain ⟨nfa, hfa, hch⟩ := hreidx
      rw [_update_reindex h1 h2 hfa hch]
    · push_neg at hreidx
      have h3 : fields.fire_at = none ∨ fields.fire_at = some d.fire_at := by
        cases hfa : fields.fire_at with
        | none => exact Or.inl rfl
        | some nfa =>
          right
          rw [hreidx nfa hfa]
      rw [_update_no_reindex h1 h2 h3]
  have hupdheap : dget ({ s0._update uuid fields with seen := sn2 } :
      RepoState).heap ref = some D' := by
    show dget (s0._update uuid fields).heap ref = some D'
    rw [hUheap, dget_dset]
    simp
  have hs2eq : s2 =
      ({ s0._update uuid fields with seen := sn2 } : RepoState).heapModify
        ref g := by
    rw [hs2def, hupd']
  have hs2heap : ∀ r, dget s2.heap r =
      if ref = r then some (g D') else dget s0.heap r := by
    intro r
    rw [hs2eq]
    unfold RepoState.heapModify
    rw [hupdheap]
    show dget (dset (s0._update uuid fields).heap ref (g D')) r = _
    rw [dget_dset]
    by_cases hr : ref = r
    · simp [hr]
    · simp only [hr, if_neg hr]
      rw [hUheap, dget_dset]
      simp [hr]
  -- invariants of s2 and the rollback
  have hwU : Wf (s0._update uuid fields) := Wf__update uuid fields hw
  have hwupd : Wf ({ s0._update uuid fields with seen := sn2 } : RepoState) := by
    have hc : sameCore (s0._update uuid fields)
        { s0._update uuid fields with seen := sn2 } := ⟨rfl, rfl, rfl, rfl⟩
    exact Wf_of_sameCore hc hwU
  have hw2 : Wf s2 := by
    rw [hs2eq]
    exact Wf_heapModify (fun e => ⟨rfl, rfl⟩) hwupd
  have hhu : ∀ uu ref2, dget s0.by_uuid uu = some ref2 →
      ∃ e, dget ({ u with repo := s2 } : UowState).repo.heap ref2 = some e ∧
        e.uuid = uu := by
    intro uu ref2 hx
    obtain ⟨e, he, heq⟩ := hw.uuidRef uu ref2 hx
    show ∃ e2, dget s2.heap ref2 = some e2 ∧ e2.uuid = uu
    rw [hs2heap ref2]
    by_cases hr : ref = ref2
    · subst hr
      rw [h2] at he
      cases he
      refine ⟨g D', by simp, ?_⟩
      show D'.uuid = uu
      exact heq
    · simp only [hr, if_neg hr]
      exact ⟨e, he, heq⟩
  obtain ⟨r1, r2, r3, r4, r5⟩ := rollback_spec s0 ({ u with repo := s2 }) hbk
    hw.uuidKeysNodup hw2 hhu
  rw [hrun]
  refine ⟨rfl, r1, ?_, ?_⟩
  · refine ⟨g D', ?_, ?_, ?_, ?_⟩
    · show dget ({ u with repo := s2 } : UowState).rollback.repo.heap ref = _
      rw [r2]
      show dget s2.heap ref = some (g D')
      rw [hs2heap ref]
      simp
    · show D'.uuid = d.uuid
      rfl
    · show D'.fire_at = now + d.ttl
      rfl
    · intro hgt
      show D'.fire_at > d.fire_at
      exact hgt
  · intro a b hwin hmem
    obtain ⟨uu, d2, hx1, hx2, hx3, hx4⟩ := fire_sound r4 a b ref hmem
    rw [r2, hs2heap ref] at hx2
    simp only [if_pos rfl] at hx2
    cases hx2
    exact hwin ⟨hx3, hx4⟩

/-- C4 amended, instantiated: a keep-alive of `store1`'s device at
`now = 200` succeeds, rewrites `fire_at` to `205 > 105`, and a query at
the old timestamp `105` no longer returns the device. -/
theorem C4_keepalive_amended_witness :
    (keep_alive_device (Cmd.keepAliveDevice "a") 200 store1).2 = none ∧
    (∃ d', dget (keep_alive_device (Cmd.keepAliveDevice "a") 200 store1).1.heap
        0 = some d' ∧ d'.uuid = dev1.uuid ∧ d'.fire_at = 200 + dev1.ttl ∧
        (200 + dev1.ttl > dev1.fire_at → d'.fire_at > dev1.fire_at)) ∧
    0 ∉ ((keep_alive_device (Cmd.keepAliveDevice "a") 200 store1).1.get_fire_at_between
      105 105).1 := by
  have h := C4_keepalive_amended store1 "a" 0 dev1 200 store1_wf rfl rfl
  exact ⟨h.1, h.2.2.1, h.2.2.2 105 105 (by decide)⟩

/-! ## Claim C3 -/

/-- The result list of the range query, over the entry state. -/
theorem fire_result_eq (s : RepoState) (a b : Int) :
    (s.get_fire_at_between a b).1 =
      collectRange s.by_fire_at s.by_uuid (intRange a b) := by
  obtain ⟨sn, hsn⟩ := fire_core s a b
  obtain ⟨f1, _, _, _, _, _, _⟩ :=
    foldFire_spec (intRange a b) (intRange_nodup a b) [] s
  rw [hsn]
  show (s._get_fire_at_between a b).1 = _
  unfold RepoState._get_fire_at_between
  rw [f1]
  rfl

/-- Every bucket with a timestamp inside the queried window is gone from
the post-query state. -/
theorem fire_post_bucket (s : RepoState) (a b : Int) :
    ∀ t, dget (s.get_fire_at_between a b).2.by_fire_at t =
      if t ∈ intRange a b then none else dget s.by_fire_at t := by
  intro t
  obtain ⟨sn, hsn⟩ := fire_core s a b
  obtain ⟨_, _, _, _, _, _, f7⟩ :=
    foldFire_spec (intRange a b) (intRange_nodup a b) [] s
  rw [hsn]
  show dget (s._get_fire_at_between a b).2.by_fire_at t = _
  unfold RepoState._get_fire_at_between
  exact f7 t

/-- C3: on a consistent, fully indexed store, `get_fire_at_between(s, e)`
returns exactly the stored devices whose `fire_at` lies in the inclusive
window `[s, e]` (a device with `fire_at = e` is included, `fire_at = e + 1`
is excluded, and `s = e` behaves like any other window), and an immediately
repeated call with the same bounds returns the empty list, because every
timestamp bucket consumed by the first call was popped from the time
index. -/
theorem C3_range_query_window (s : RepoState) (a b : Int)
    (hw : Wf s) (hfull : FullIndex s) :
    (∀ ref, ref ∈ (s.get_fire_at_between a b).1 ↔
      ∃ u d, dget s.by_uuid u = some ref ∧ dget s.heap ref = some d ∧
        a ≤ d.fire_at ∧ d.fire_at ≤ b) ∧
    ((s.get_fire_at_between a b).2.get_fire_at_between a b).1 = [] := by
  constructor
  · intro ref
    constructor
    · exact fire_sound hw a b ref
    · rintro ⟨u, d, h1, h2, h3, h4⟩
      exact fire_complete hw hfull a b u ref d h1 h2 h3 h4
  · rw [fire_result_eq]
    refine collectRange_empty ?_
    intro ts hts
    rw [fire_post_bucket]
    simp [hts]

/-- C3, instantiated on a two-device store (`fire_at` 105 and 106) and the
window `[100, 105]`: the device firing at 105 (the upper bound) is
returned, and the repeated query returns nothing. -/
theorem C3_range_query_window_witness :
    0 ∈ (store2.get_fire_at_between 100 105).1 ∧
    ((store2.get_fire_at_between 100 105).2.get_fire_at_between 100 105).1 = [] := by
  have h := C3_range_query_window store2 100 105 store2_wf store2_full
  refine ⟨(h.1 0).mpr ⟨"a", dev1, rfl, rfl, by decide, by decide⟩, h.2⟩

/-! ## Claim C10 -/

/-- C10: starting from the empty in-memory repository, any sequence of
`add` (with a uuid not already present), `update`, `remove`, `remove_all`
and `get_fire_at_between` operations keeps the two indexes consistent:
every uuid sitting in a time bucket `by_fire_at[t]` is a key of `by_uuid`
whose (live) device has `fire_at = t`, and no bucket is empty. -/
theorem C10_index_invariant (s : RepoState) (h : Reach s) :
    ∀ t b, dget s.by_fire_at t = some b →
      b ≠ [] ∧ ∀ u ∈ b, ∃ ref d, dget s.by_uuid u = some ref ∧
        dget s.heap ref = some d ∧ d.fire_at = t := by
  intro t b hb
  obtain ⟨hne, _, hmem⟩ := h.wf.bucketSound t b hb
  exact ⟨hne, hmem⟩

/-- C10, instantiated: a store reached by two adds, a keep-alive style
update and a consuming range query satisfies the invariant at bucket
`205`. -/
theorem C10_index_invariant_witness :
    (["a"] ≠ [] ∧ ∀ u ∈ ["a"], ∃ ref d,
      dget (((store2.update "a" { fire_at := some 205, name := none }
        ).get_fire_at_between 106 106).2).by_uuid u = some ref ∧
      dget (((store2.update "a" { fire_at := some 205, name := none }
        ).get_fire_at_between 106 106).2).heap ref = some d ∧
      d.fire_at = 205) := by
  have hreach : Reach (((store2.update "a" { fire_at := some 205, name := none }
      ).get_fire_at_between 106 106).2) :=
    Reach.fire_between _ 106 106 (Reach.update _ "a" _ store2_reach)
  exact C10_index_invariant _ hreach 205 ["a"] (by decide)

/-! ## Claim C6 -/

/-- The inclusive query windows of a tick sequence: with `l` the poll
timestamp before the first tick and `nows` the tick instants, tick `i`
queries `[previous instant + 1, nows i]`. -/
def tickWindows (l : Int) : List Int → List (Int × Int)
  | [] => []
  | n :: rest => (l + 1, n) :: tickWindows n rest

/-- Two inclusive integer windows share no timestamp. -/
def winDisjoint (w1 w2 : Int × Int) : Prop :=
  ∀ t, w1.1 ≤ t → t ≤ w1.2 → ¬ (w2.1 ≤ t ∧ t ≤ w2.2)

theorem tickWindows_start_lb (l : Int) (nows : List Int)
    (h : List.Chain' (· ≤ ·) (l :: nows)) :
    ∀ w ∈ tickWindows l nows, l + 1 ≤ w.1 := by
  induction nows generalizing l with
  | nil =>
    intro w hwin
    cases hwin
  | cons n rest ih =>
    intro w hwin
    rcases List.mem_cons.mp hwin with hwin | hwin
    · subst hwin
      simp
    · have hc := List.chain'_cons.mp h
      have hlb := ih n hc.2 w hwin
      have hln : l ≤ n := hc.1
      omega

theorem tickWindows_pairwise (l : Int) (nows : List Int)
    (h : List.Chain' (· ≤ ·) (l :: nows)) :
    List.Pairwise winDisjoint (tickWindows l nows) := by
  induction nows generalizing l with
  | nil => exact List.Pairwise.nil
  | cons n rest ih =>
    have hc := List.chain'_cons.mp h
    refine List.Pairwise.cons ?_ (ih n hc.2)
    intro w hwin
    have hstart := tickWindows_start_lb n rest hc.2 w hwin
    intro t ht1 ht2 hcon
    dsimp only at ht1 ht2
    obtain ⟨hc1, hc2⟩ := hcon
    omega

/-- One poller tick: the poll timestamp advances to `now`, the store (heap
and uuid index) is preserved, the invariant holds again, and every fired
reference is a stored device with `fire_at` in `[last_poll + 1, now]`. -/
theorem tick_spec (p : FirePoller) (now : Int) (s : RepoState) (hw : Wf s) :
    (p.check_and_fire now s).2.2 = { p with last_poll := now } ∧
    (p.check_and_fire now s).2.1.heap = s.heap ∧
    (p.check_and_fire now s).2.1.by_uuid = s.by_uuid ∧
    Wf (p.check_and_fire now s).2.1 ∧
    (∀ ref ∈ (p.check_and_fire now s).1, ∃ u d,
      dget s.by_uuid u = some ref ∧ dget s.heap ref = some d ∧
      p.last_poll + 1 ≤ d.fire_at ∧ d.fire_at ≤ now) := by
  have hbk := (uowEnter_core s).1
  obtain ⟨sn0, hrepo⟩ := (uowEnter_core s).2
  set u : UowState := uowEnter s with hu
  set r : List Nat × RepoState :=
    u.repo.get_fire_at_between (p.last_poll + 1) now with hr
  have hwu : Wf u.repo := by
    rw [hrepo]
    have hc : sameCore s ({ s with seen := sn0 } : RepoState) :=
      ⟨rfl, rfl, rfl, rfl⟩
    exact Wf_of_sameCore hc hw
  have hw2 : Wf r.2 := Wf_fire_pub (p.last_poll + 1) now hwu
  have hrheap : r.2.heap = s.heap := by
    rw [hr]
    rw [(fire_heap u.repo (p.last_poll + 1) now).1, hrepo]
  have hhu : ∀ uu ref, dget s.by_uuid uu = some ref →
      ∃ d, dget ({ u with repo := r.2 } : UowState).repo.heap ref = some d ∧
        d.uuid = uu := by
    intro uu ref hx
    obtain ⟨d, hd, hdu⟩ := hw.uuidRef uu ref hx
    show ∃ d2, dget r.2.heap ref = some d2 ∧ d2.uuid = uu
    rw [hrheap]
    exact ⟨d, hd, hdu⟩
  obtain ⟨r1, r2, r3, r4, r5⟩ := rollback_spec s ({ u with repo := r.2 }) hbk
    hw.uuidKeysNodup hw2 hhu
  have hres2 : (p.check_and_fire now s).2.1 =
      ({ u with repo := r.2 } : UowState).rollback.repo := rfl
  refine ⟨rfl, ?_, ?_, ?_, ?_⟩
  · rw [hres2, r2, hrheap]
  · rw [hres2, r1]
  · rw [hres2]
    exact r4
  · intro ref hmem
    have hmem' : ref ∈ r.1 := hmem
    rw [hr] at hmem'
    obtain ⟨uu, d, hx1, hx2, hx3, hx4⟩ :=
      fire_sound hwu (p.last_poll + 1) now ref hmem'
    rw [hrepo] at hx1 hx2
    exact ⟨uu, d, hx1, hx2, hx3, hx4⟩

/-- A run of ticks keeps the heap, bounds every fired reference from
below by its tick window, and fires every reference at most once. -/
theorem runTicks_spec (nows : List Int) (p : FirePoller) (s : RepoState)
    (hw : Wf s) (hchain : List.Chain' (· ≤ ·) (p.last_poll :: nows)) :
    (runTicks p s nows).2.1.heap = s.heap ∧
    (∀ batch ∈ (runTicks p s nows).1, ∀ ref ∈ batch,
      ∃ d, dget s.heap ref = some d ∧ p.last_poll + 1 ≤ d.fire_at) ∧
    (∀ ref, ((runTicks p s nows).1.countP (fun b => decide (ref ∈ b))) ≤ 1) := by
  induction nows generalizing p s with
  | nil =>
    refine ⟨rfl, ?_, ?_⟩
    · intro batch hbatch
      cases hbatch
    · intro ref
      simp [runTicks]
  | cons now rest ih =>
    obtain ⟨t1, t2, t3, t4, t5⟩ := tick_spec p now s hw
    have hc := List.chain'_cons.mp hchain
    have hlast : (p.check_and_fire now s).2.2.last_poll = now := by
      rw [t1]
    have hchain' : List.Chain'  (· ≤ ·)
        ((p.check_and_fire now s).2.2.last_poll :: rest) := by
      rw [hlast]
      exact hc.2
    obtain ⟨ih1, ih2, ih3⟩ :=
      ih (p.check_and_fire now s).2.2 (p.check_and_fire now s).2.1 t4 hchain'
    have hfold : runTicks p s (now :: rest) =
        ((p.check_and_fire now s).1 ::
          (runTicks (p.check_and_fire now s).2.2 (p.check_and_fire now s).2.1 rest).1,
         (runTicks (p.check_and_fire now s).2.2 (p.check_and_fire now s).2.1 rest).2) := rfl
    rw [hfold]
    refine ⟨by rw [ih1, t2], ?_, ?_⟩
    · intro batch hbatch ref href
      rcases List.mem_cons.mp hbatch with hbatch | hbatch
      · subst hbatch
        obtain ⟨uu, d, hx1, hx2, hx3, _⟩ := t5 ref href
        exact ⟨d, hx2, hx3⟩
      · obtain ⟨d, hd, hlb⟩ := ih2 batch hbatch ref href
        rw [t2] at hd
        have hln : p.last_poll ≤ now := hc.1
        rw [hlast] at hlb
        exact ⟨d, hd, by omega⟩
    · intro ref
      rw [List.countP_cons]
      by_cases hin : ref ∈ (p.check_and_fire now s).1
      · obtain ⟨uu, d, hx1, hx2, hx3, hx4⟩ := t5 ref hin
        have hrest : ∀ batch ∈ (runTicks (p.check_and_fire now s).2.2
            (p.check_and_fire now s).2.1 rest).1, ref ∉ batch := by
          intro batch hbatch hcontra
          obtain ⟨d2, hd2, hlb2⟩ := ih2 batch hbatch ref hcontra
          rw [t2] at hd2
          rw [hx2] at hd2
          cases hd2
          rw [hlast] at hlb2
          omega
        have hz : (runTicks (p.check_and_fire now s).2.2
            (p.check_and_fire now s).2.1 rest).1.countP
              (fun b => decide (ref ∈ b)) = 0 := by
          rw [List.countP_eq_zero]
          intro batch hbatch
          simp only [decide_eq_true_eq]
          exact hrest batch hbatch
        rw [hz]
        simp [hin]
      · have := ih3 ref
        simp only [hin, decide_eq_true_eq]
        simp [hin, this]

/-- C6: with wall-clock ticks at non-decreasing instants, every
`check_and_fire` tick queries the store's inclusive window
`[last_poll + 1, now]` and then sets `last_poll = now` (whatever the
firing produced); the windows of successive ticks are pairwise disjoint;
and a device reference is fired by at most one tick of the run — never
revisited. -/
theorem C6_poller_at_most_once (p : FirePoller) (s : RepoState)
    (nows : List Int) (hw : Wf s)
    (hchain : List.Chain' (· ≤ ·) (p.last_poll :: nows)) :
    (∀ (q : FirePoller) (now : Int) (st : RepoState),
      (q.check_and_fire now st).2.2 = { q with last_poll := now } ∧
      (q.check_and_fire now st).1 =
        ((uowEnter st).repo.get_fire_at_between (q.last_poll + 1) now).1) ∧
    List.Pairwise winDisjoint (tickWindows p.last_poll nows) ∧
    (∀ ref, ((runTicks p s nows).1.countP (fun b => decide (ref ∈ b))) ≤ 1) :=
  ⟨fun q now st => ⟨rfl, rfl⟩,
   tickWindows_pairwise p.last_poll nows hchain,
   (runTicks_spec nows p s hw hchain).2.2⟩

/-- C6, instantiated: two ticks at 105 and 110 over `store2` fire each
device exactly once in total (reference 0 in the first batch, 1 in the
second), and never twice. -/
theorem C6_poller_at_most_once_witness :
    (runTicks { last_poll := 100, interval_sec := 10 } store2 [105, 110]).1.countP
      (fun b => decide (0 ∈ b)) ≤ 1 ∧
    (runTicks { last_poll := 100, interval_sec := 10 } store2 [105, 110]).1.countP
      (fun b => decide (1 ∈ b)) ≤ 1 := by
  have hch : List.Chain' (· ≤ ·) [(100 : Int), 105, 110] := by
    refine List.chain'_cons.mpr ⟨by norm_num, ?_⟩
    refine List.chain'_cons.mpr ⟨by norm_num, ?_⟩
    exact List.chain'_singleton 110
  have h := C6_poller_at_most_once { last_poll := 100, interval_sec := 10 }
    store2 [105, 110] store2_wf hch
  exact ⟨h.2.2 0, h.2.2 1⟩

end StillHere
